import Mathlib

/-!
Verification of the broker-paste parsing core of tradehub-engine.

The Python sources are embedded shallowly: rows and lines are lists of
characters, Python float values are modelled as rationals, fallible
parses return Option.  Each definition mirrors one Python function and
keeps its name where Lean allows it.
-/

namespace TradeHub

abbrev Str := List Char

/-- Whitespace test used by Python str.split with no arguments. -/
def isWs (c : Char) : Bool := c.isWhitespace

/-- Helper for whitespace splitting: cur is the current token reversed. -/
def splitWsAux (cur : Str) : Str → List Str
  | [] => if cur = [] then [] else [cur.reverse]
  | c :: rest =>
    if isWs c then
      if cur = [] then splitWsAux [] rest
      else cur.reverse :: splitWsAux [] rest
    else splitWsAux (c :: cur) rest

/-- Python str.split(): split on whitespace runs, dropping empty pieces. -/
def splitWs (l : Str) : List Str := splitWsAux [] l

/-- One step of row.replace applied per character: a sign char gets a
space inserted before it, any other char is kept. -/
def expandSign (c : Char) : Str :=
  if c = '+' then [' ', '+'] else if c = '-' then [' ', '-'] else [c]

/-- token_split from stand_alone/csp_monitor.py lines 131-134: insert a
space before every sign character, then split on whitespace. -/
def token_split (row : Str) : List Str := splitWs (row.flatMap expandSign)

/-- Comma removal done by to_int, to_float and the get helper. -/
def stripCommas (t : Str) : Str := t.filter (fun c => c ≠ ',')

/-- Numeric value of a digit string. -/
def digitsVal (l : Str) : Nat := l.foldl (fun acc c => 10 * acc + c.toNat - '0'.toNat) 0

/-- Parse a nonempty all-digit string. -/
def parseDigits (l : Str) : Option Nat :=
  if l ≠ [] ∧ l.all Char.isDigit then some (digitsVal l) else none

/-- to_int from stand_alone/csp_monitor.py: drop commas, then Python
int() on an optionally signed digit string. -/
def to_int (t : Str) : Option Int :=
  match stripCommas t with
  | '+' :: r => (parseDigits r).map (fun n => (n : Int))
  | '-' :: r => (parseDigits r).map (fun n => -(n : Int))
  | r => (parseDigits r).map (fun n => (n : Int))

/-- Value of an integer part plus a fraction part, as a rational. -/
def decimalVal (ds fs : Str) : ℚ :=
  (digitsVal ds : ℚ) + (digitsVal fs : ℚ) / (10 ^ fs.length)

/-- to_float from stand_alone/csp_monitor.py: drop commas, then Python
float() on an optionally signed decimal literal. -/
def to_float (t : Str) : Option ℚ :=
  let core : Str → Option ℚ := fun s =>
    let ds := s.takeWhile Char.isDigit
    let rest := s.dropWhile Char.isDigit
    match rest with
    | [] => if ds = [] then none else some (decimalVal ds [])
    | '.' :: f =>
      if f.all Char.isDigit ∧ (ds ≠ [] ∨ f ≠ []) then some (decimalVal ds f) else none
    | _ => none
  match stripCommas t with
  | '+' :: r => core r
  | '-' :: r => (core r).map Neg.neg
  | r => core r

def itmTok : Str := ['I', 'T', 'M']
def otmTok : Str := ['O', 'T', 'M']

/-- Word character for the regex word boundary: ASCII letters, digits, underscore. -/
def isWordChar (c : Char) : Bool := c.isAlphanum || c = '_'

/-- Does pat lead the list l (match at the current position)? -/
def leadsList : Str → Str → Bool
  | [], _ => true
  | _ :: _, [] => false
  | a :: as, b :: bs => a = b && leadsList as bs

/-- Word-boundary match of pat at the head of s, with prev the character
just before the current position (none at the start of the row). -/
def wordMatchAt (prev : Option Char) (s pat : Str) : Bool :=
  leadsList pat s &&
  (match prev with | none => true | some c => !isWordChar c) &&
  (match s.drop pat.length with | [] => true | c :: _ => !isWordChar c)

/-- Scan for the leftmost word-boundary occurrence of ITM or OTM, the
model of ITM_RE.search; prev carries the previous character. -/
def itmSearchAux (prev : Option Char) : Str → Option Str
  | [] => none
  | c :: rest =>
    if wordMatchAt prev (c :: rest) itmTok then some itmTok
    else if wordMatchAt prev (c :: rest) otmTok then some otmTok
    else itmSearchAux (some c) rest

/-- ITM_RE.search on a row, returning the matched marker text. -/
def itm_search (row : Str) : Option Str := itmSearchAux none row

/-- First index of a token equal to the marker, as in the loop of
parse_after_itm_block. -/
def idxOfTok : List Str → Str → Option Nat
  | [], _ => none
  | t :: ts, m => if t = m then some 0 else (idxOfTok ts m).map (· + 1)

/-- Nth element of a token list. -/
def nthTok : List Str → Nat → Option Str
  | [], _ => none
  | t :: _, 0 => some t
  | _ :: ts, n + 1 => nthTok ts n

/-- The get helper inside parse_after_itm_block: token at index i with
commas removed, none when out of range. -/
def getTok (toks : List Str) (i : Nat) : Option Str :=
  (nthTok toks i).map stripCommas

/-- Result of parse_after_itm_block: marker flag, dte, delta, open
interest, quantity. -/
abbrev ItmFields := Option Str × Option Int × Option ℚ × Option Int × Option Int

/-- parse_after_itm_block from stand_alone/csp_monitor.py lines 136-161:
locate the marker via regex search, find the first token equal to it,
read the next four tokens as dte, delta, oi, qty, and retry the fifth
token when qty parses to an integer other than one or minus one. -/
def parse_after_itm_block (row : Str) : ItmFields :=
  match itm_search row with
  | none => (none, none, none, none, none)
  | some itm =>
    let toks := token_split row
    match idxOfTok toks itm with
    | none => (some itm, none, none, none, none)
    | some idx =>
      let dte := (getTok toks (idx + 1)).bind to_int
      let delta := (getTok toks (idx + 2)).bind to_float
      let oi := (getTok toks (idx + 3)).bind to_int
      let qty0 := (getTok toks (idx + 4)).bind to_int
      let qty :=
        match qty0 with
        | none => none
        | some v =>
          if v = 1 ∨ v = -1 then some v
          else
            match (getTok toks (idx + 5)).bind to_int with
            | some w => if w = 1 ∨ w = -1 then some w else some v
            | none => some v
      (some itm, dte, delta, oi, qty)

/-- Bare ticker test from detect_underlyings: full match of an uppercase
letter followed by up to six characters from uppercase, digit, dot. -/
def isTickerLine (l : Str) : Bool :=
  match l with
  | [] => false
  | c :: rest => c.isUpper && decide (rest.length ≤ 6) &&
      rest.all (fun d => d.isUpper || d.isDigit || d = '.')

/-- MONEY_RE.match: a dollar sign, an optional minus, digits, and an
optional fraction part, anchored at the start of the line; returns the
numeric value of the first group. -/
def money_match (l : Str) : Option ℚ :=
  match l with
  | '$' :: r =>
    let signed : Bool × Str := match r with | '-' :: t => (true, t) | _ => (false, r)
    let ds := signed.2.takeWhile Char.isDigit
    if ds = [] then none
    else
      let rest := signed.2.dropWhile Char.isDigit
      let q : ℚ :=
        match rest with
        | '.' :: f =>
          let fs := f.takeWhile Char.isDigit
          if fs = [] then (digitsVal ds : ℚ) else decimalVal ds fs
        | _ => (digitsVal ds : ℚ)
      some (if signed.1 then -q else q)
  | _ => none

/-- MONEY_RE.search: leftmost position where money_match succeeds. -/
def money_search : Str → Option ℚ
  | [] => none
  | c :: rest =>
    match money_match (c :: rest) with
    | some v => some v
    | none => money_search rest

/-- Pointwise update of the underlying map (Python dict assignment). -/
def updFn (f : Str → Option ℚ) (k : Str) (v : ℚ) : Str → Option ℚ :=
  fun x => if x = k then some v else f x

def startsDollar (l : Str) : Bool :=
  match l with
  | '$' :: _ => true
  | _ => false

/-- One iteration of the detect_underlyings loop: a ticker line becomes
the pending symbol; a pending symbol meeting a line that starts with a
dollar sign writes the map when the money pattern matches and clears in
either case; any other line leaves the pending symbol in place, because
the Python clears sym only inside the startswith branch. -/
def detect_step (sym : Option Str) (und : Str → Option ℚ) (l : Str) :
    Option Str × (Str → Option ℚ) :=
  if isTickerLine l then (some l, und)
  else
    match sym with
    | some s =>
      if startsDollar l then
        match money_match l with
        | some v => (none, updFn und s v)
        | none => (none, und)
      else (some s, und)
    | none => (none, und)

/-- A line that neither matches the ticker pattern nor starts with a
dollar sign; such lines never change the detector state apart from the
pending symbol surviving them. -/
def neutralLine (l : Str) : Bool := !isTickerLine l && !startsDollar l

/-- The first subsequent ticker-or-dollar line, if any, does not capture
a pending symbol: it is a ticker (replacing the pending symbol) or a
dollar line failing the money pattern (clearing it without an entry). -/
def noPendingCapture : List Str → Bool
  | [] => true
  | l :: rest =>
    if isTickerLine l then true
    else if startsDollar l then (money_match l).isNone
    else noPendingCapture rest

/-- Loop of detect_underlyings: sym is the pending bare-ticker line. -/
def detect_underlyings_aux (sym : Option Str) (und : Str → Option ℚ) :
    List Str → (Str → Option ℚ)
  | [] => und
  | l :: rest =>
    detect_underlyings_aux (detect_step sym und l).1 (detect_step sym und l).2 rest

/-- detect_underlyings from stand_alone/csp_monitor.py lines 114-128,
with the dict of Underlying records modelled as a finite map from the
symbol to an optional last price. -/
def detect_underlyings (lines : List Str) : Str → Option ℚ :=
  detect_underlyings_aux none (fun _ => none) lines

/-- OptionRow dataclass from stand_alone/csp_monitor.py. -/
structure OptionRow where
  symbol : Str
  exp : Str
  strike : ℚ
  cp : Char
  dte : Option Int
  delta : Option ℚ
  oi : Option Int
  qty : Option Int
  mark : Option ℚ
  itm_flag : Option Str
  raw : Str
  deriving DecidableEq

/-- Character class of the symbol body in HEADER_RE. -/
def isSymChar (c : Char) : Bool := c.isUpper || c.isDigit || c = '.'

/-- One-or-more whitespace, consumed greedily. -/
def munchWs1 (l : Str) : Option Str :=
  match l with
  | c :: r => if isWs c then some (r.dropWhile isWs) else none
  | [] => none

/-- Date group of HEADER_RE: two digits, slash, two digits, slash, four
digits; returns the matched text and the remainder. -/
def parseDate (l : Str) : Option (Str × Str) :=
  match l with
  | a :: b :: '/' :: c :: d :: '/' :: e :: f :: g :: k :: rest =>
    if [a, b, c, d, e, f, g, k].all Char.isDigit then
      some ([a, b, '/', c, d, '/', e, f, g, k], rest)
    else none
  | _ => none

/-- Strike group of HEADER_RE: digits with an optional fraction part;
returns the value and the remainder. -/
def parseNumQ (l : Str) : Option (ℚ × Str) :=
  let ds := l.takeWhile Char.isDigit
  if ds = [] then none
  else
    let rest := l.dropWhile Char.isDigit
    match rest with
    | '.' :: fr =>
      let fs := fr.takeWhile Char.isDigit
      if fs = [] then some ((digitsVal ds : ℚ), rest)
      else some (decimalVal ds fs, fr.dropWhile Char.isDigit)
    | _ => some ((digitsVal ds : ℚ), rest)

/-- Word boundary after the C or P group of HEADER_RE. -/
def boundaryOK (l : Str) : Bool :=
  match l with
  | [] => true
  | c :: _ => !isWordChar c

/-- HEADER_RE.match from stand_alone/csp_monitor.py line 97: symbol,
date, strike and option type anchored at the start of the line. -/
def header_match (l : Str) : Option (Str × Str × ℚ × Char) :=
  match l with
  | [] => none
  | c :: rest =>
    if !c.isUpper then none
    else
      let symRest := rest.takeWhile isSymChar
      if symRest.length > 6 then none
      else
        match munchWs1 (rest.dropWhile isSymChar) with
        | none => none
        | some r1 =>
          match parseDate r1 with
          | none => none
          | some (date, r2) =>
            match munchWs1 r2 with
            | none => none
            | some r3 =>
              match parseNumQ r3 with
              | none => none
              | some (strike, r4) =>
                match munchWs1 r4 with
                | none => none
                | some r5 =>
                  match r5 with
                  | 'C' :: r6 =>
                    if boundaryOK r6 then some (c :: symRest, date, strike, 'C') else none
                  | 'P' :: r6 =>
                    if boundaryOK r6 then some (c :: symRest, date, strike, 'P') else none
                  | _ => none

/-- Containment of a character sequence, used for the EXP label test. -/
def containsSeq : Str → Str → Bool
  | [], pat => leadsList pat []
  | c :: rest, pat => leadsList pat (c :: rest) || containsSeq rest pat

def upperStr (l : Str) : Str := l.map Char.toUpper

/-- Label-row test inside the data-row scan of parse_options: the row is
skipped when the space-padded row contains the EXP word or the upcased
row starts with CALL or PUT. -/
def is_label_row (row : Str) : Bool :=
  containsSeq (' ' :: (row ++ [' '])) " EXP ".toList ||
  leadsList "CALL ".toList (upperStr row) ||
  leadsList "PUT ".toList (upperStr row)


/-- Data-row scan of parse_options: walk at most eight lines past the
header, skipping label rows, and return the first line starting with a
dollar sign together with the lines after it. -/
def findData : List Str → Nat → Option (Str × List Str)
  | _, 0 => none
  | [], _ => none
  | row :: rest, fuel + 1 =>
    if is_label_row row then findData rest fuel
    else if startsDollar row then some (row, rest)
    else findData rest fuel

/-- Main loop of parse_options; the fuel starts at the line count and
bounds the recursion, decreasing strictly each iteration. -/
def parse_options_aux : Nat → List Str → List OptionRow
  | 0, _ => []
  | _, [] => []
  | fuel + 1, l :: rest =>
    match header_match l with
    | none => parse_options_aux fuel rest
    | some (sym, date, strike, cp) =>
      match findData rest 8 with
      | none => parse_options_aux fuel rest
      | some (row, after) =>
        let mark := money_search row
        let fields := parse_after_itm_block row
        { symbol := sym, exp := date, strike := strike, cp := cp,
          dte := fields.2.1, delta := fields.2.2.1, oi := fields.2.2.2.1,
          qty := fields.2.2.2.2, mark := mark, itm_flag := fields.1, raw := row }
          :: parse_options_aux fuel after

/-- parse_options from stand_alone/csp_monitor.py lines 164-199. -/
def parse_options (lines : List Str) : List OptionRow :=
  parse_options_aux lines.length lines

/-- The data rows selected by the parse_options loop, mirroring its
header match, eight-line scan and resume point, without any per-field
parsing: row selection never consults the quantity or any other parsed
field. -/
def selected_rows_aux : Nat → List Str → List Str
  | 0, _ => []
  | _, [] => []
  | fuel + 1, l :: rest =>
    match header_match l with
    | none => selected_rows_aux fuel rest
    | some _ =>
      match findData rest 8 with
      | none => selected_rows_aux fuel rest
      | some (row, after) => row :: selected_rows_aux fuel after

/-- Data rows selected by parse_options, by geometry alone. -/
def selected_rows (lines : List Str) : List Str :=
  selected_rows_aux lines.length lines

/-- is_short_put from stand_alone/csp_monitor.py: type P and quantity
exactly minus one. -/
def is_short_put (o : OptionRow) : Bool :=
  decide (o.cp = 'P' ∧ o.qty = some (-1))

/-- pop_proxy from stand_alone/csp_monitor.py lines 225-227. -/
def pop_proxy (delta : Option ℚ) : Option ℚ :=
  match delta with
  | none => none
  | some d => some (max 0 (min 1 (1 - |d|)))

/-- pop_proxy_from_delta from stand_alone/covered_call_monitor.py lines
192-196: note the inner clamp is max of zero and delta, not an absolute
value. -/
def pop_proxy_from_delta (delta : Option ℚ) : Option ℚ :=
  match delta with
  | none => none
  | some d => some (max 0 (min 1 (1 - max 0 d)))

/-- cycles_left from stand_alone/pmcc_monitor.py lines 218-220. -/
def cycles_left (dte_long : Option Int) : Int :=
  match dte_long with
  | none => 0
  | some d => max 0 ⌊((d : ℚ) - 21) / 30⌋

/-- long_extrinsic from stand_alone/pmcc_monitor.py. -/
def long_extrinsic (long : OptionRow) (last : Option ℚ) : Option ℚ :=
  match long.mark, last with
  | some m, some l => some (max 0 (m - max 0 (l - long.strike)))
  | _, _ => none

/-- coverage_ok from stand_alone/pmcc_monitor.py lines 227-233: zero
cycles short-circuits to fully covered; otherwise the required credit
per cycle is the extrinsic divided by the cycle count, and the short
mark (defaulted to zero) is compared against eighty percent of it. -/
def coverage_ok (extr : Option ℚ) (dte_long : Option Int) (short_mark : Option ℚ) :
    Option Bool × Option ℚ :=
  match extr, dte_long with
  | some e, some d =>
    let cyc := cycles_left (some d)
    if cyc = 0 then (some true, some 0)
    else
      let req := e / (cyc : ℚ)
      (some (decide (short_mark.getD 0 ≥ 8 / 10 * req)), some req)
  | _, _ => (none, none)

/-- Result dict of size_csp from scripts/rank_csp.py. -/
structure SizeResult where
  contracts : Int
  status : String
  reason : String
  required_cash : ℚ
  cash_left : Option ℚ
  deriving DecidableEq

/-- size_csp from scripts/rank_csp.py lines 162-181. -/
def size_csp (strike : Option ℚ) (cash_available per_trade_cap : ℚ) : SizeResult :=
  let per_contract_cash := strike.getD 0 * 100
  let hard_cap := min cash_available per_trade_cap
  if hard_cap ≤ 0 ∨ per_contract_cash ≤ 0 then
    { contracts := 0, status := "blocked", reason := "no cash",
      required_cash := 0, cash_left := none }
  else
    let max_by_cash : Int := ⌊hard_cap / per_contract_cash⌋
    if max_by_cash ≤ 0 then
      { contracts := 0, status := "blocked", reason := "not enough for 1 contract",
        required_cash := per_contract_cash, cash_left := none }
    else
      let contracts := max_by_cash
      let required_cash := (contracts : ℚ) * per_contract_cash
      let remain := cash_available - required_cash
      if contracts = 1 ∧ remain < per_contract_cash * (25 / 100) then
        { contracts := contracts, status := "tight",
          reason := "low remaining cash after 1 contract",
          required_cash := required_cash, cash_left := some remain }
      else
        { contracts := contracts, status := "ok",
          reason := "fits within cash/per-trade cap",
          required_cash := required_cash, cash_left := some remain }

/-- Leg dict as consumed by scripts/monitor_card.py; dte stands for the
day difference between the parsed expiration date and today, none when
the expiration fails to parse. -/
structure CardLeg where
  side : Option String
  typ : Option String
  moneyness : Option String
  dte : Option Int
  deriving DecidableEq

/-- min_dte from scripts/monitor_card.py lines 335-346. -/
def min_dte (legs : List CardLeg) : Int :=
  match legs with
  | [] => 999
  | _ =>
    match legs.filterMap (fun l => l.dte) with
    | [] => 999
    | d :: rest => rest.foldl min d

/-- any_short_leg from scripts/monitor_card.py. -/
def any_short_leg (legs : List CardLeg) (typ : Option String) : Bool :=
  legs.any fun l =>
    decide (l.side = some "short") && (decide (typ = none) || decide (l.typ = typ))

/-- ASCII uppercase of a Lean string, the model of Python str.upper. -/
def upAscii (s : String) : String := ⟨upperStr s.data⟩

/-- any_moneyness from scripts/monitor_card.py. -/
def any_moneyness (legs : List CardLeg) (mon : String) : Bool :=
  legs.any fun l => decide (upAscii (l.moneyness.getD "") = upAscii mon)

/-- assess from scripts/monitor_card.py lines 363-421. -/
def assess (strategy : String) (legs : List CardLeg) : String × List String :=
  let dte := min_dte legs
  if strategy = "covered_call" then
    if dte ≤ 21 ∧ any_short_leg legs (some "call") then
      ("ROLL", ["Covered call near ≤21 DTE — roll out to harvest extrinsic / manage assignment."])
    else ("HOLD", ["Maintain covered call; watch delta & assignment risk."])
  else if strategy = "csp" then
    if any_short_leg legs (some "put") ∧ any_moneyness legs "ITM" then
      ("HOLD", ["CSP is ITM and red — consider roll-for-credit / manage delta; monitor cushion."])
    else if dte ≤ 21 ∧ any_short_leg legs (some "put") then
      ("ROLL", ["CSP near ≤21 DTE — roll out (preserve cushion, extend duration)."])
    else ("HOLD", ["CSP: no immediate trigger if ≥21 DTE and cushion remains."])
  else if strategy = "pmcc" then
    if dte ≤ 21 ∧ any_short_leg legs (some "call") then
      ("ROLL", ["PMCC short leg nearing ≤21 DTE — roll to maintain extrinsic & coverage."])
    else ("HOLD", ["Coverage looks okay; monitor short delta & extrinsic."])
  else if strategy = "diagonal" then
    if dte ≤ 21 ∧ any_short_leg legs none then
      ("ROLL", ["Diagonal short near ≤21 DTE — roll per thesis & keep timeline."])
    else ("HOLD", ["Diagonal: maintain structure; manage short leg cadence."])
  else if strategy = "vertical" then
    if dte ≤ 21 then
      ("CLOSE", ["Vertical (defined risk) near ≤21 DTE — tidy up or realize P/L."])
    else ("HOLD", ["Vertical (defined risk): hold."])
  else if strategy = "iron_condor" then
    if dte ≤ 21 then
      ("CLOSE", ["Iron Condor near ≤21 DTE — reduce tail risk / close or take profits."])
    else ("HOLD", ["Iron Condor: hold; manage wings if breached."])
  else if strategy = "long_call" then
    if dte ≤ 21 then
      ("CLOSE", ["Long call approaching expiry — close/roll per thesis & vol."])
    else ("HOLD", ["Long call: hold per thesis; reassess delta/vol."])
  else ("HOLD", ["Unknown strategy; no rule fired."])

/-- Python short.dte or 999 inside the PMCC report of
scripts/Untitled-2.py line 435: a missing or zero dte is replaced by 999. -/
def orFalsy999 (dte : Option Int) : Int :=
  match dte with
  | some d => if d = 0 then 999 else d
  | none => 999

/-- Roll recommendation trigger on dte in the PMCC report of
scripts/Untitled-2.py line 435, with the default policy value 21. -/
def pmcc_roll_dte_rec (dte : Option Int) : Bool :=
  decide (orFalsy999 dte ≤ 21)

/-- Roll recommendation trigger on delta in the PMCC report of
scripts/Untitled-2.py line 437, with the default policy value 0.55. -/
def pmcc_roll_delta_rec (delta : Option ℚ) : Bool :=
  match delta with
  | none => false
  | some d => decide (|d| > 11 / 20)

/-- Python round to even on a rational value. -/
def roundHalfEven (x : ℚ) : Int :=
  if x - ⌊x⌋ < 1 / 2 then ⌊x⌋
  else if 1 / 2 < x - ⌊x⌋ then ⌊x⌋ + 1
  else if ⌊x⌋ % 2 = 0 then ⌊x⌋ else ⌊x⌋ + 1

/-- Python round(x, 2): round the value to the nearest cent. -/
def round2 (x : ℚ) : ℚ := (roundHalfEven (x * 100) : ℚ) / 100

/-- gtc_credit_targets from scripts/verticals_monitor.py lines 159-165. -/
def gtc_credit_targets (basis_credit : Option ℚ) (tiers : List ℚ) :
    Option (List (ℚ × ℚ)) :=
  match basis_credit with
  | none => none
  | some b => some (tiers.map fun p => (p, round2 (max (5 / 100) (b * (1 - p / 100)))))

/-- gtc_debit_targets from scripts/verticals_monitor.py lines 167-174. -/
def gtc_debit_targets (basis_debit : Option ℚ) (tiers : List ℚ) (max_cap : Option ℚ) :
    Option (List (ℚ × ℚ)) :=
  match basis_debit with
  | none => none
  | some b =>
    some (tiers.map fun p =>
      match max_cap with
      | some w => (p, min w (round2 (b * (1 + p / 100))))
      | none => (p, round2 (b * (1 + p / 100))))

/-- gtc_targets from scripts/csp_monitor.py lines 214-220. -/
def gtc_targets (credit_basis : Option ℚ) (tiers : List ℚ) : Option (List (ℚ × ℚ)) :=
  match credit_basis with
  | none => none
  | some b => some (tiers.map fun p => (p, round2 (max (5 / 100) (b * (1 - p / 100)))))

/-- Modelled from the spec wording for claim C6: rounding to the nearest
five cents. -/
def roundNickel (x : ℚ) : ℚ := (round (x * 20) : ℚ) / 20

/-- Modelled from the spec wording of leg-extraction step 6: the four
tokens immediately following the anchor are read positionally as dte,
delta, open interest and quantity, with the fifth token tried for the
quantity when the fourth parses to an integer other than plus or minus
one. -/
def claimReadAfter (post : List Str) : Option Int × Option ℚ × Option Int × Option Int :=
  let dte := (nthTok post 0).bind to_int
  let delta := (nthTok post 1).bind to_float
  let oi := (nthTok post 2).bind to_int
  let qty :=
    match (nthTok post 3).bind to_int with
    | none => none
    | some v =>
      if v = 1 ∨ v = -1 then some v
      else
        match (nthTok post 4).bind to_int with
        | some w => if w = 1 ∨ w = -1 then some w else some v
        | none => some v
  (dte, delta, oi, qty)

/-- Join a token list back into a row with single spaces. -/
def joinTok : List Str → Str
  | [] => []
  | t :: rest =>
    match rest with
    | [] => t
    | _ :: _ => t ++ ' ' :: joinTok rest

/-- Well-formed token: nonempty, free of whitespace, and sign characters
only in leading position, so that joining and re-splitting restores the
token list. -/
def wfToken (t : Str) : Prop :=
  t ≠ [] ∧ (∀ c ∈ t, isWs c = false) ∧ ∀ c ∈ t.tail, c ≠ '+' ∧ c ≠ '-'

instance (t : Str) : Decidable (wfToken t) := by
  unfold wfToken; infer_instance

/-- The relation along the expanded row: a sign character may only
follow a space. -/
def signAfterSpace (a b : Char) : Prop := (b = '+' ∨ b = '-') → a = ' '

end TradeHub

namespace TradeHub

/-- C8: for a known long dte, cycles_left is the clamped floor of
(dte - 21) / 30; when it is zero (in particular whenever dte is at most
21) the coverage check answers fully covered with zero required credit
instead of dividing by zero, and when it is positive the required
per-cycle credit is the extrinsic divided by the cycle count. -/
theorem C8_cycles_left_coverage (d : Int) (e : ℚ) (sm : Option ℚ) :
    cycles_left (some d) = max 0 ⌊((d : ℚ) - 21) / 30⌋ ∧
    (d ≤ 21 → cycles_left (some d) = 0) ∧
    (cycles_left (some d) = 0 → coverage_ok (some e) (some d) sm = (some true, some 0)) ∧
    (0 < cycles_left (some d) →
      (coverage_ok (some e) (some d) sm).2 = some (e / (cycles_left (some d) : ℚ))) := by
  refine ⟨rfl, ?_, ?_, ?_⟩
  · intro hd
    have hnum : ((d : ℚ) - 21) / 30 ≤ 0 := by
      apply div_nonpos_of_nonpos_of_nonneg
      · have : (d : ℚ) ≤ 21 := by exact_mod_cast hd
        linarith
      · norm_num
    have hfl : ⌊((d : ℚ) - 21) / 30⌋ ≤ 0 := by
      have := Int.floor_le_floor hnum
      simpa using this
    simp [cycles_left, max_eq_left hfl]
  · intro h0
    simp [coverage_ok, h0]
  · intro hpos
    have hne : cycles_left (some d) ≠ 0 := ne_of_gt hpos
    simp [coverage_ok, hne]

/-- Witness for C8 at concrete inputs: dte 15 gives zero cycles and a
fully-covered answer, dte 100 gives two cycles and required credit
three halves. -/
theorem C8_cycles_left_coverage_witness :
    cycles_left (some 15) = 0 ∧
    coverage_ok (some 2) (some 15) (some 1) = (some true, some 0) ∧
    (coverage_ok (some 3) (some 100) (some 1)).2 = some (3 / 2) := by
  have h15 := C8_cycles_left_coverage 15 2 (some 1)
  have h100 := C8_cycles_left_coverage 100 3 (some 1)
  have hz : cycles_left (some 15) = 0 := h15.2.1 (by norm_num)
  refine ⟨hz, h15.2.2.1 hz, ?_⟩
  have hcyc : cycles_left (some 100) = 2 := by
    rw [h100.1]
    norm_num
  have hpos : 0 < cycles_left (some 100) := by rw [hcyc]; norm_num
  have := h100.2.2.2 hpos
  rw [hcyc] at this
  rw [this]
  norm_num

end TradeHub

namespace TradeHub

/-- C9 counterexample: the covered-call proxy at delta minus three
tenths returns one, not one minus the absolute delta, refuting the claim
that the 1 - abs(delta) formula holds for both computations. -/
theorem C9_counterexample :
    pop_proxy_from_delta (some (-(3 / 10))) = some 1 ∧
    1 - |(-(3 / 10) : ℚ)| = 7 / 10 ∧
    (1 : ℚ) ≠ 7 / 10 := by
  have habs : |(-(3 / 10) : ℚ)| = 3 / 10 := by
    rw [abs_neg, abs_of_nonneg]
    norm_num
  refine ⟨?_, by rw [habs]; norm_num, by norm_num⟩
  simp only [pop_proxy_from_delta]
  congr 1
  rw [max_eq_left (by norm_num : (-(3 / 10) : ℚ) ≤ 0)]
  norm_num

/-- C9 amended: the cash-secured-put proxy equals 1 - abs(delta) for
delta in the unit interval and is none when delta is absent; the
covered-call proxy instead clamps delta below at zero, so it equals
1 - delta only for delta in the closed unit interval and returns one
for every negative delta. -/
theorem C9_pop_proxy (d : ℚ) :
    (|d| ≤ 1 → pop_proxy (some d) = some (1 - |d|)) ∧
    pop_proxy none = none ∧
    (0 ≤ d → d ≤ 1 → pop_proxy_from_delta (some d) = some (1 - d)) ∧
    (d < 0 → pop_proxy_from_delta (some d) = some 1) ∧
    pop_proxy_from_delta none = none := by
  refine ⟨?_, rfl, ?_, ?_, rfl⟩
  · intro h
    have h0 : (0 : ℚ) ≤ |d| := abs_nonneg d
    simp only [pop_proxy]
    congr 1
    rw [min_eq_right (by linarith), max_eq_right (by linarith)]
  · intro h0 h1
    simp only [pop_proxy_from_delta]
    congr 1
    rw [max_eq_right h0, min_eq_right (by linarith), max_eq_right (by linarith)]
  · intro hneg
    simp only [pop_proxy_from_delta]
    congr 1
    rw [max_eq_left (le_of_lt hneg)]
    norm_num

/-- Witness for C9 at delta one quarter: both proxies give three
quarters. -/
theorem C9_pop_proxy_witness :
    |(1 / 4 : ℚ)| ≤ 1 ∧ pop_proxy (some (1 / 4)) = some (1 - |(1 / 4 : ℚ)|) ∧
    pop_proxy_from_delta (some (1 / 4)) = some (1 - 1 / 4) ∧
    pop_proxy_from_delta (some (-(1 / 4))) = some 1 := by
  have h := C9_pop_proxy (1 / 4)
  have hn := C9_pop_proxy (-(1 / 4))
  have habs : |(1 / 4 : ℚ)| ≤ 1 := by
    rw [abs_of_nonneg (by norm_num : (0 : ℚ) ≤ 1 / 4)]
    norm_num
  exact ⟨habs, h.1 habs, h.2.2.1 (by norm_num) (by norm_num),
    hn.2.2.2.1 (by norm_num)⟩

/-- C4: with positive cash, cap and per-contract requirement, the sizer
returns the floor of the capped cash over the requirement as the
contract count, its status is one of ok, tight, blocked with blocked
exactly at zero contracts and tight exactly at one contract with the
remaining cash under a quarter of one more contract, and the committed
cash never exceeds the capped cash. -/
theorem C4_size_csp (k cash cap : ℚ) (hper : 0 < k * 100)
    (hcash : 0 < cash) (hcap : 0 < cap) :
    (size_csp (some k) cash cap).contracts = ⌊min cash cap / (k * 100)⌋ ∧
    ((size_csp (some k) cash cap).status = "ok" ∨
      (size_csp (some k) cash cap).status = "tight" ∨
      (size_csp (some k) cash cap).status = "blocked") ∧
    ((size_csp (some k) cash cap).status = "blocked" ↔
      (size_csp (some k) cash cap).contracts = 0) ∧
    ((size_csp (some k) cash cap).status = "tight" ↔
      ((size_csp (some k) cash cap).contracts = 1 ∧
        cash - ((size_csp (some k) cash cap).contracts : ℚ) * (k * 100) <
          k * 100 * (25 / 100))) ∧
    ((size_csp (some k) cash cap).contracts : ℚ) * (k * 100) ≤ min cash cap := by
  have hhard : 0 < min cash cap := lt_min hcash hcap
  have hc1 : ¬(min cash cap ≤ 0 ∨ k * 100 ≤ 0) := by
    push_neg
    exact ⟨hhard, hper⟩
  have hflnn : 0 ≤ ⌊min cash cap / (k * 100)⌋ := by
    apply Int.floor_nonneg.mpr
    positivity
  have hmul : (⌊min cash cap / (k * 100)⌋ : ℚ) * (k * 100) ≤ min cash cap := by
    have h1 : (⌊min cash cap / (k * 100)⌋ : ℚ) ≤ min cash cap / (k * 100) :=
      Int.floor_le _
    calc (⌊min cash cap / (k * 100)⌋ : ℚ) * (k * 100)
        ≤ min cash cap / (k * 100) * (k * 100) :=
          mul_le_mul_of_nonneg_right h1 (le_of_lt hper)
      _ = min cash cap := div_mul_cancel₀ _ (ne_of_gt hper)
  have hrw : size_csp (some k) cash cap =
      if ⌊min cash cap / (k * 100)⌋ ≤ 0 then
        { contracts := 0, status := "blocked", reason := "not enough for 1 contract",
          required_cash := k * 100, cash_left := none }
      else if ⌊min cash cap / (k * 100)⌋ = 1 ∧
          cash - (⌊min cash cap / (k * 100)⌋ : ℚ) * (k * 100) < k * 100 * (25 / 100) then
        { contracts := ⌊min cash cap / (k * 100)⌋, status := "tight",
          reason := "low remaining cash after 1 contract",
          required_cash := (⌊min cash cap / (k * 100)⌋ : ℚ) * (k * 100),
          cash_left := some (cash - (⌊min cash cap / (k * 100)⌋ : ℚ) * (k * 100)) }
      else
        { contracts := ⌊min cash cap / (k * 100)⌋, status := "ok",
          reason := "fits within cash/per-trade cap",
          required_cash := (⌊min cash cap / (k * 100)⌋ : ℚ) * (k * 100),
          cash_left := some (cash - (⌊min cash cap / (k * 100)⌋ : ℚ) * (k * 100)) } := by
    unfold size_csp
    simp only [Option.getD_some]
    rw [if_neg hc1]
  by_cases hz : ⌊min cash cap / (k * 100)⌋ ≤ 0
  · have hzero : ⌊min cash cap / (k * 100)⌋ = 0 := le_antisymm hz hflnn
    rw [hrw, if_pos hz]
    refine ⟨?_, ?_, Iff.intro (fun _ => rfl) (fun _ => rfl), ?_, ?_⟩
    · show (0 : ℤ) = ⌊min cash cap / (k * 100)⌋
      rw [hzero]
    · right; right; rfl
    · refine iff_of_false ?_ ?_
      · show ¬("blocked" = "tight")
        decide
      · rintro ⟨h1, _⟩
        have h2 : (0 : ℤ) = 1 := h1
        exact absurd h2 (by decide)
    · show ((0 : ℤ) : ℚ) * (k * 100) ≤ min cash cap
      rw [Int.cast_zero, zero_mul]
      exact le_of_lt hhard
  · by_cases htight : ⌊min cash cap / (k * 100)⌋ = 1 ∧
        cash - (⌊min cash cap / (k * 100)⌋ : ℚ) * (k * 100) < k * 100 * (25 / 100)
    · rw [hrw, if_neg hz, if_pos htight]
      refine ⟨rfl, ?_, ?_, iff_of_true rfl htight, hmul⟩
      · right; left; rfl
      · refine iff_of_false ?_ ?_
        · show ¬("tight" = "blocked")
          decide
        · intro h
          have h2 : ⌊min cash cap / (k * 100)⌋ = 0 := h
          rw [h2] at hz
          exact hz le_rfl
    · rw [hrw, if_neg hz, if_neg htight]
      refine ⟨rfl, ?_, ?_, iff_of_false ?_ htight, hmul⟩
      · left; rfl
      · refine iff_of_false ?_ ?_
        · show ¬("ok" = "blocked")
          decide
        · intro h
          have h2 : ⌊min cash cap / (k * 100)⌋ = 0 := h
          rw [h2] at hz
          exact hz le_rfl
      · show ¬("ok" = "tight")
        decide

/-- Witness for C4 at the spec example: 1000 cash, 1000 cap, strike 6:
one contract, committed cash bounded by the capped cash. -/
theorem C4_size_csp_witness :
    (0 : ℚ) < 6 * 100 ∧
    (size_csp (some 6) 1000 1000).contracts = ⌊min (1000 : ℚ) 1000 / (6 * 100)⌋ ∧
    ((size_csp (some 6) 1000 1000).contracts : ℚ) * (6 * 100) ≤ min (1000 : ℚ) 1000 := by
  have h := C4_size_csp 6 1000 1000 (by norm_num) (by norm_num) (by norm_num)
  exact ⟨by norm_num, h.1, h.2.2.2.2⟩

end TradeHub

namespace TradeHub

/-- C5 counterexample: a classified cash-secured put with a short put
leg at ten days to expiration is assessed HOLD, not Roll, because the
ITM branch of assess fires first; this refutes the claimed Roll rule
for dte at most 21 under default policy. -/
theorem C5_counterexample :
    min_dte [⟨some "short", some "put", some "ITM", some 10⟩] ≤ 21 ∧
    any_short_leg [⟨some "short", some "put", some "ITM", some 10⟩] (some "put") = true ∧
    (assess "csp" [⟨some "short", some "put", some "ITM", some 10⟩]).1 = "HOLD" := by
  decide

/-- C5 amended: the card assessor of monitor_card triggers on dte alone
with no delta rule: Roll for covered call and PMCC at dte at most 21
with a short call, for a diagonal with any short leg, and for a CSP with
a short put unless some leg is flagged ITM, which forces Hold; Close at
dte at most 21 for vertical, iron condor and also long call; Hold in the
remaining cases.  The delta trigger of the claim exists only in the PMCC
report tool, which rolls when the absolute short delta exceeds 0.55 or
when dte is at most 21, except that a dte of zero is treated as missing
there. -/
theorem C5_assess_rules (legs : List CardLeg) (δ : ℚ) :
    ((assess "covered_call" legs).1 = "ROLL" ↔
      (min_dte legs ≤ 21 ∧ any_short_leg legs (some "call") = true)) ∧
    ((assess "csp" legs).1 = "ROLL" ↔
      (¬(any_short_leg legs (some "put") = true ∧ any_moneyness legs "ITM" = true) ∧
        min_dte legs ≤ 21 ∧ any_short_leg legs (some "put") = true)) ∧
    ((assess "pmcc" legs).1 = "ROLL" ↔
      (min_dte legs ≤ 21 ∧ any_short_leg legs (some "call") = true)) ∧
    ((assess "diagonal" legs).1 = "ROLL" ↔
      (min_dte legs ≤ 21 ∧ any_short_leg legs none = true)) ∧
    ((assess "vertical" legs).1 = "CLOSE" ↔ min_dte legs ≤ 21) ∧
    ((assess "iron_condor" legs).1 = "CLOSE" ↔ min_dte legs ≤ 21) ∧
    ((assess "long_call" legs).1 = "CLOSE" ↔ min_dte legs ≤ 21) ∧
    pmcc_roll_dte_rec (some 0) = false ∧
    (∀ n : Int, n ≠ 0 → (pmcc_roll_dte_rec (some n) = true ↔ n ≤ 21)) ∧
    (pmcc_roll_delta_rec (some δ) = true ↔ |δ| > 11 / 20) ∧
    pmcc_roll_delta_rec none = false := by
  refine ⟨?_, ?_, ?_, ?_, ?_, ?_, ?_, by decide, ?_, ?_, rfl⟩
  · simp only [assess, String.reduceEq, reduceIte]
    split_ifs with h
    · exact iff_of_true rfl h
    · exact iff_of_false (by decide) h
  · simp only [assess, String.reduceEq, reduceIte]
    split_ifs with h1 h2
    · refine iff_of_false (by decide) ?_
      rintro ⟨hna, _⟩
      exact hna h1
    · exact iff_of_true rfl ⟨h1, h2⟩
    · refine iff_of_false (by decide) ?_
      rintro ⟨_, hb⟩
      exact h2 hb
  · simp only [assess, String.reduceEq, reduceIte]
    split_ifs with h
    · exact iff_of_true rfl h
    · exact iff_of_false (by decide) h
  · simp only [assess, String.reduceEq, reduceIte]
    split_ifs with h
    · exact iff_of_true rfl h
    · exact iff_of_false (by decide) h
  · simp only [assess, String.reduceEq, reduceIte]
    split_ifs with h
    · exact iff_of_true rfl h
    · exact iff_of_false (by decide) h
  · simp only [assess, String.reduceEq, reduceIte]
    split_ifs with h
    · exact iff_of_true rfl h
    · exact iff_of_false (by decide) h
  · simp only [assess, String.reduceEq, reduceIte]
    split_ifs with h
    · exact iff_of_true rfl h
    · exact iff_of_false (by decide) h
  · intro n hn
    unfold pmcc_roll_dte_rec orFalsy999
    simp [hn]
  · unfold pmcc_roll_delta_rec
    simp

end TradeHub

namespace TradeHub

/-- Witness for C5 on a concrete vertical position at ten days out and
on the PMCC report triggers at dte 15 and delta three fifths. -/
theorem C5_assess_rules_witness :
    (assess "vertical" [⟨some "short", some "call", none, some 10⟩]).1 = "CLOSE" ∧
    (pmcc_roll_dte_rec (some 15) = true ↔ (15 : Int) ≤ 21) ∧
    (pmcc_roll_delta_rec (some (3 / 5)) = true ↔ |(3 / 5 : ℚ)| > 11 / 20) := by
  have h := C5_assess_rules [⟨some "short", some "call", none, some 10⟩] (3 / 5)
  exact ⟨h.2.2.2.2.1.mpr (by decide), h.2.2.2.2.2.2.2.2.1 15 (by decide),
    h.2.2.2.2.2.2.2.2.2.1⟩

/-- C6 counterexample: at basis one dollar and tier 33 percent, the
implemented credit target is 67 cents, the nearest cent, while rounding
to the nearest five cents as claimed would give 65 cents. -/
theorem C6_counterexample :
    gtc_credit_targets (some 1) [33] = some [(33, 67 / 100)] ∧
    gtc_targets (some 1) [33] = some [(33, 67 / 100)] ∧
    roundNickel (1 * (1 - 33 / 100)) = 65 / 100 ∧
    (67 / 100 : ℚ) ≠ 65 / 100 := by
  have hmax : max (5 / 100 : ℚ) (1 * (1 - 33 / 100)) = 67 / 100 := by
    rw [max_eq_right (by norm_num)]
    norm_num
  have hr : round2 (67 / 100) = 67 / 100 := by
    unfold round2 roundHalfEven
    norm_num
  refine ⟨?_, ?_, ?_, by norm_num⟩
  · simp only [gtc_credit_targets, List.map]
    rw [show (1 : ℚ) * (1 - 33 / 100) = 1 * (1 - 33 / 100) from rfl, hmax, hr]
  · simp only [gtc_targets, List.map]
    rw [hmax, hr]
  · unfold roundNickel
    rw [show (1 : ℚ) * (1 - 33 / 100) * 20 = 67 / 5 from by norm_num]
    rw [round_eq]
    norm_num

end TradeHub

namespace TradeHub

/-- Round half to even stays within half a unit of the input. -/
theorem roundHalfEven_close (x : ℚ) : |(roundHalfEven x : ℚ) - x| ≤ 1 / 2 := by
  have h1 : (⌊x⌋ : ℚ) ≤ x := Int.floor_le x
  have h2 : x < ⌊x⌋ + 1 := Int.lt_floor_add_one x
  unfold roundHalfEven
  split_ifs with ha hb hc <;> rw [abs_le] <;> constructor <;> push_cast <;> linarith

/-- Rounding to the nearest cent stays within half a cent. -/
theorem round2_close (y : ℚ) : |round2 y - y| ≤ 1 / 200 := by
  have h := roundHalfEven_close (y * 100)
  have heq : round2 y - y = ((roundHalfEven (y * 100) : ℚ) - y * 100) / 100 := by
    unfold round2
    ring
  rw [heq, abs_div, abs_of_nonneg (by norm_num : (0 : ℚ) ≤ 100)]
  rw [div_le_iff (by norm_num : (0 : ℚ) < 100)]
  linarith

/-- Rounding to the nearest cent preserves the five-cent floor. -/
theorem round2_ge_nickel (y : ℚ) (h : 5 / 100 ≤ y) : 5 / 100 ≤ round2 y := by
  have hc := roundHalfEven_close (y * 100)
  have hlow : -(1 / 2 : ℚ) ≤ (roundHalfEven (y * 100) : ℚ) - y * 100 := (abs_le.mp hc).1
  have h4 : (4 : ℚ) < (roundHalfEven (y * 100) : ℚ) := by
    have : (5 : ℚ) ≤ y * 100 := by linarith
    linarith
  have h5 : (5 : ℤ) ≤ roundHalfEven (y * 100) := by
    have : (4 : ℤ) < roundHalfEven (y * 100) := by exact_mod_cast h4
    omega
  unfold round2
  rw [div_le_div_iff (by norm_num) (by norm_num)]
  have : (5 : ℚ) ≤ (roundHalfEven (y * 100) : ℚ) := by exact_mod_cast h5
  linarith

/-- C6 amended: the credit target is the basis times one minus the tier
percentage, floored at five cents and then rounded to the nearest cent,
not to the nearest five cents; the cent-rounded value is an integer
number of cents, keeps the five-cent floor, and sits within half a cent
of the exact product; the debit target is the cent-rounded marked-up
basis capped afterwards at the given maximum value. -/
theorem C6_gtc_targets (b p w : ℚ) (hb : 5 / 100 ≤ b * (1 - p / 100)) :
    gtc_credit_targets (some b) [p] = some [(p, round2 (b * (1 - p / 100)))] ∧
    gtc_targets (some b) [p] = some [(p, round2 (b * (1 - p / 100)))] ∧
    (∃ n : Int, round2 (b * (1 - p / 100)) = (n : ℚ) / 100) ∧
    5 / 100 ≤ round2 (b * (1 - p / 100)) ∧
    |round2 (b * (1 - p / 100)) - b * (1 - p / 100)| ≤ 1 / 200 ∧
    gtc_debit_targets (some b) [p] (some w) =
      some [(p, min w (round2 (b * (1 + p / 100))))] ∧
    min w (round2 (b * (1 + p / 100))) ≤ w ∧
    |round2 (b * (1 + p / 100)) - b * (1 + p / 100)| ≤ 1 / 200 := by
  refine ⟨?_, ?_, ⟨roundHalfEven (b * (1 - p / 100) * 100), rfl⟩,
    round2_ge_nickel _ hb, round2_close _, rfl, min_le_left _ _, round2_close _⟩
  · simp only [gtc_credit_targets, List.map]
    rw [max_eq_right hb]
  · simp only [gtc_targets, List.map]
    rw [max_eq_right hb]

/-- Witness for C6 at basis one dollar, tier 50 percent, cap two
dollars. -/
theorem C6_gtc_targets_witness :
    (5 / 100 : ℚ) ≤ 1 * (1 - 50 / 100) ∧
    gtc_credit_targets (some 1) [50] = some [(50, round2 (1 * (1 - 50 / 100)))] ∧
    5 / 100 ≤ round2 (1 * (1 - 50 / 100)) ∧
    min 2 (round2 (1 * (1 + 50 / 100))) ≤ 2 := by
  have hb : (5 / 100 : ℚ) ≤ 1 * (1 - 50 / 100) := by norm_num
  have h := C6_gtc_targets 1 50 2 hb
  exact ⟨hb, h.1, h.2.2.2.1, h.2.2.2.2.2.2.1⟩

end TradeHub

namespace TradeHub

/-- The head of an expanded row is never a sign character. -/
theorem flatMap_expandSign_head (row : Str) :
    ∀ c ∈ (row.flatMap expandSign).head?, ¬(c = '+' ∨ c = '-') := by
  match row with
  | [] => intro c hc; simp at hc
  | d :: rest =>
    intro c hc
    by_cases hp : d = '+'
    · simp [expandSign, hp] at hc
      subst hc
      simp
    · by_cases hm : d = '-'
      · simp [expandSign, hp, hm] at hc
        subst hc
        simp
      · simp [expandSign, hp, hm] at hc
        subst hc
        exact not_or.mpr ⟨hp, hm⟩

/-- In an expanded row, every sign character is preceded by a space. -/
theorem flatMap_expandSign_chain (row : Str) :
    List.Chain' signAfterSpace (row.flatMap expandSign) := by
  induction row with
  | nil => simp
  | cons d rest ih =>
    show List.Chain' signAfterSpace (expandSign d ++ rest.flatMap expandSign)
    rw [List.chain'_append]
    refine ⟨?_, ih, ?_⟩
    · by_cases hp : d = '+'
      · simp [expandSign, hp]
        intro h
        rfl
      · by_cases hm : d = '-'
        · simp [expandSign, hp, hm]
          intro h
          rfl
        · simp [expandSign, hp, hm]
    · intro x hx y hy
      intro hsig
      exact absurd hsig (flatMap_expandSign_head rest y hy)

/-- The tail of a reversed list is the reversed list without its last
element. -/
theorem tail_reverse_eq {α : Type} (l : List α) :
    l.reverse.tail = l.dropLast.reverse := by
  induction l using List.reverseRecOn with
  | nil => rfl
  | append_singleton xs x _ => simp

/-- Splitting an expanded row never leaves a sign character in the
interior of a token, provided signs in the input only follow spaces and
the pending token obeys the same discipline. -/
theorem splitWsAux_signs (l : Str) :
    ∀ cur : Str,
      List.Chain' signAfterSpace l →
      (∀ a ∈ cur.head?, ∀ b ∈ l.head?, signAfterSpace a b) →
      (∀ c ∈ cur.dropLast, ¬(c = '+' ∨ c = '-')) →
      (∀ c ∈ cur, isWs c = false) →
      ∀ t ∈ splitWsAux cur l, ∀ c ∈ t.tail, c ≠ '+' ∧ c ≠ '-' := by
  induction l with
  | nil =>
    intro cur _ _ hcur _ t ht c hc
    unfold splitWsAux at ht
    split_ifs at ht with hemp
    · simp at ht
    · simp at ht
      subst ht
      rw [tail_reverse_eq] at hc
      have := hcur c (by simpa using hc)
      exact not_or.mp this
  | cons d rest ih =>
    intro cur hchain hhead hcur hcurnw t ht c hc
    unfold splitWsAux at ht
    by_cases hws : isWs d
    · rw [if_pos hws] at ht
      have hrest : List.Chain' signAfterSpace rest := hchain.tail
      by_cases hemp : cur = []
      · rw [if_pos hemp] at ht
        exact ih [] hrest (by simp) (by simp) (by simp) t ht c hc
      · rw [if_neg hemp] at ht
        rcases List.mem_cons.mp ht with heq | hmem
        · subst heq
          rw [tail_reverse_eq] at hc
          have := hcur c (by simpa using hc)
          exact not_or.mp this
        · exact ih [] hrest (by simp) (by simp) (by simp) t hmem c hc
    · rw [if_neg hws] at ht
      have hrest : List.Chain' signAfterSpace rest := hchain.tail
      have hdR : ∀ b ∈ rest.head?, signAfterSpace d b :=
        (List.chain'_cons'.mp hchain).1
      have hnotsign : cur ≠ [] → ¬(d = '+' ∨ d = '-') := by
        intro hne hsig
        match cur, hne with
        | a :: cur', _ =>
          have hr : signAfterSpace a d := hhead a (by simp) d (by simp)
          have ha := hr hsig
          have := hcurnw a (by simp)
          rw [ha] at this
          simp [isWs] at this
      refine ih (d :: cur) hrest ?_ ?_ ?_ t ht c hc
      · intro a ha b hb
        simp at ha
        subst ha
        exact hdR b hb
      · intro x hx
        match cur with
        | [] => simp at hx
        | a :: cur' =>
          rw [List.dropLast_cons₂] at hx
          rcases List.mem_cons.mp hx with heq | hmem
          · subst heq
            exact hnotsign (by simp) 
          · exact hcur x hmem
      · intro x hx
        rcases List.mem_cons.mp hx with heq | hmem
        · subst heq
          simpa using hws
        · exact hcurnw x hmem

/-- C10: the tokenizer starts a new token before every sign character:
no output token carries an interior sign, a leading sign stays glued to
the number, interior signs split a token in two, and a sign between the
anchor and the four fields shifts every positional read. -/
theorem C10_token_split_signs :
    (∀ row : Str, ∀ t ∈ token_split row, ∀ c ∈ t.tail, c ≠ '+' ∧ c ≠ '-') ∧
    token_split "1-2".toList = ["1".toList, "-2".toList] ∧
    token_split "BRK-B".toList = ["BRK".toList, "-B".toList] ∧
    token_split "a -1 b".toList = ["a".toList, "-1".toList, "b".toList] ∧
    parse_after_itm_block "$1.00 ITM 320 0.82 5200 -1".toList =
      (some itmTok, some 320, some (41 / 50), some 5200, some (-1)) ∧
    parse_after_itm_block "$1.00 ITM 3-20 0.82 5200 -1".toList =
      (some itmTok, some 3, some (-20), none, some (-1)) := by
  refine ⟨?_, by decide, by decide, by decide, ?_, ?_⟩
  · intro row t ht c hc
    exact splitWsAux_signs (row.flatMap expandSign) []
      (flatMap_expandSign_chain row) (by simp) (by simp) (by simp) t ht c hc
  · simp [parse_after_itm_block, itm_search, itmSearchAux,
      wordMatchAt, leadsList, isWordChar, itmTok, otmTok, token_split, splitWs,
      splitWsAux, expandSign, isWs, idxOfTok, getTok, nthTok, stripCommas,
      to_int, to_float, parseDigits, digitsVal, decimalVal]
    norm_num
  · simp [parse_after_itm_block, itm_search, itmSearchAux,
      wordMatchAt, leadsList, isWordChar, itmTok, otmTok, token_split, splitWs,
      splitWsAux, expandSign, isWs, idxOfTok, getTok, nthTok, stripCommas,
      to_int, to_float, parseDigits, digitsVal, decimalVal]

/-- Witness for C10: in the split of one concrete row the token minus
one has no interior sign character. -/
theorem C10_token_split_signs_witness :
    ("-1".toList ∈ token_split "a -1 b".toList ∧ '1' ∈ "-1".toList.tail) ∧
    '1' ≠ '+' ∧ '1' ≠ '-' :=
  ⟨by decide, C10_token_split_signs.1 "a -1 b".toList "-1".toList (by decide) '1' (by decide)⟩

end TradeHub

namespace TradeHub

/-- C2 counterexample: a put header whose data row carries quantity 5
still yields an OptionRow in the extraction output, with the quantity
kept at 5; the leg is not dropped. -/
theorem C2_counterexample :
    (parse_options ["AAPL 01/16/2026 190.00 P".toList,
      "$1.00 ITM 30 0.25 100 5".toList]).map OptionRow.qty = [some 5] ∧
    some (5 : Int) ≠ some 1 ∧ some (5 : Int) ≠ some (-1) := by
  refine ⟨by decide, by decide, by decide⟩

/-- The legs returned by extraction are exactly the geometrically
selected data rows: projecting the output to its raw rows gives the
selection, which never consults any parsed field. -/
theorem parse_options_aux_raw : ∀ (fuel : Nat) (lines : List Str),
    (parse_options_aux fuel lines).map OptionRow.raw = selected_rows_aux fuel lines := by
  intro fuel
  induction fuel with
  | zero =>
    intro lines
    cases lines <;> rfl
  | succ f ih =>
    intro lines
    cases lines with
    | nil => rfl
    | cons l rest =>
      rcases hh : header_match l with _ | ⟨sym, date, strike, cp⟩
      · simp only [parse_options_aux, selected_rows_aux, hh]
        exact ih rest
      · rcases hf : findData rest 8 with _ | ⟨row, after⟩
        · simp only [parse_options_aux, selected_rows_aux, hh, hf]
          exact ih rest
        · simp only [parse_options_aux, selected_rows_aux, hh, hf, List.map_cons]
          rw [ih after]

/-- Every selected data row yields exactly one OptionRow whose quantity
is the anchor-parse result for that row, whatever it resolves to; no
row is dropped on account of its quantity. -/
theorem parse_options_aux_qty : ∀ (fuel : Nat) (lines : List Str),
    (parse_options_aux fuel lines).map OptionRow.qty =
      (selected_rows_aux fuel lines).map
        (fun row => (parse_after_itm_block row).2.2.2.2) := by
  intro fuel
  induction fuel with
  | zero =>
    intro lines
    cases lines <;> rfl
  | succ f ih =>
    intro lines
    cases lines with
    | nil => rfl
    | cons l rest =>
      rcases hh : header_match l with _ | ⟨sym, date, strike, cp⟩
      · simp only [parse_options_aux, selected_rows_aux, hh]
        exact ih rest
      · rcases hf : findData rest 8 with _ | ⟨row, after⟩
        · simp only [parse_options_aux, selected_rows_aux, hh, hf]
          exact ih rest
        · simp only [parse_options_aux, selected_rows_aux, hh, hf, List.map_cons]
          rw [ih after]

/-- C2 amended: for every input, the rows extraction emits are decided
by header-and-data-row geometry alone (selected_rows), so a leg whose
quantity resolves to neither plus one nor minus one is retained, not
dropped: each selected row yields one OptionRow carrying the anchor
parse of its quantity, whatever that is, while extraction continues with
the remaining lines; such legs are excluded only downstream, by the
short-put selection, which accepts a leg exactly when its type is P and
its quantity is minus one. -/
theorem C2_parse_options_retention :
    (∀ lines : List Str,
      (parse_options lines).map OptionRow.raw = selected_rows lines) ∧
    (∀ lines : List Str,
      (parse_options lines).map OptionRow.qty =
        (selected_rows lines).map
          (fun row => (parse_after_itm_block row).2.2.2.2)) ∧
    (∀ o : OptionRow, is_short_put o = true ↔ o.cp = 'P' ∧ o.qty = some (-1)) ∧
    (parse_options ["AAPL 01/16/2026 190.00 P".toList, "$1.00 ITM 30 0.25 100 5".toList,
      "MSFT 01/16/2026 400.00 P".toList, "$2.00 OTM 40 0.30 200 -1".toList]).map
      (fun o => (o.symbol, o.qty)) =
      [("AAPL".toList, some 5), ("MSFT".toList, some (-1))] ∧
    (parse_options ["AAPL 01/16/2026 190.00 P".toList, "$1.00 ITM 30 0.25 100 5".toList,
      "MSFT 01/16/2026 400.00 P".toList, "$2.00 OTM 40 0.30 200 -1".toList]).map
      is_short_put = [false, true] := by
  refine ⟨fun lines => parse_options_aux_raw lines.length lines,
    fun lines => parse_options_aux_qty lines.length lines, ?_, by decide, by decide⟩
  intro o
  constructor
  · intro h
    exact of_decide_eq_true h
  · intro h
    exact decide_eq_true h

/-- Witness for C2: the selection accepts a concrete short put leg, and
the raw-row projection agrees with the geometric selection on a concrete
paste. -/
theorem C2_parse_options_retention_witness :
    is_short_put ⟨[], [], 0, 'P', none, none, none, some (-1), none, none, []⟩ = true ∧
    (parse_options ["AAPL 01/16/2026 190.00 P".toList,
      "$1.00 ITM 30 0.25 100 5".toList]).map OptionRow.raw =
      selected_rows ["AAPL 01/16/2026 190.00 P".toList,
        "$1.00 ITM 30 0.25 100 5".toList] :=
  ⟨(C2_parse_options_retention.2.2.1
      ⟨[], [], 0, 'P', none, none, none, some (-1), none, none, []⟩).mpr ⟨rfl, rfl⟩,
    C2_parse_options_retention.1 _⟩

end TradeHub

namespace TradeHub

/-- A ticker line makes the pending symbol. -/
theorem detect_step_ticker (sym : Option Str) (und : Str → Option ℚ) (l : Str)
    (ht : isTickerLine l = true) : detect_step sym und l = (some l, und) := by
  simp [detect_step, ht]

/-- A successful money match forces a leading dollar sign. -/
theorem money_match_startsDollar (l : Str) (v : ℚ) (hm : money_match l = some v) :
    startsDollar l = true := by
  match l with
  | [] => cases hm
  | c :: rest =>
    by_cases hc : c = '$'
    · simp [startsDollar, hc]
    · rw [show money_match (c :: rest) = none by
        unfold money_match
        cases c
        simp_all [startsDollar]] at hm
      cases hm

/-- A pending symbol followed by a valid price line writes the map and
clears. -/
theorem detect_step_hit (und : Str → Option ℚ) (l : Str) (s : Str) (v : ℚ)
    (ht : isTickerLine l = false) (hm : money_match l = some v) :
    detect_step (some s) und l = (none, updFn und s v) := by
  have hd := money_match_startsDollar l v hm
  simp [detect_step, ht, hd, hm]

/-- A pending symbol meeting a dollar line that fails the money pattern
is cleared without an entry. -/
theorem detect_step_dollarFail (sym : Option Str) (und : Str → Option ℚ) (l : Str)
    (ht : isTickerLine l = false) (hd : startsDollar l = true)
    (hm : money_match l = none) : detect_step sym und l = (none, und) := by
  cases sym <;> simp [detect_step, ht, hd, hm]

/-- On a line that is neither a ticker nor a dollar line, the pending
symbol survives and the map is unchanged. -/
theorem detect_step_neutral (sym : Option Str) (und : Str → Option ℚ) (l : Str)
    (ht : isTickerLine l = false) (hd : startsDollar l = false) :
    detect_step sym und l = (sym, und) := by
  cases sym <;> simp [detect_step, ht, hd]

/-- With no pending symbol a non-ticker line changes nothing. -/
theorem detect_step_nosym (und : Str → Option ℚ) (l : Str)
    (ht : isTickerLine l = false) : detect_step none und l = (none, und) := by
  simp [detect_step, ht]

/-- Shifting an adjacent-with-neutral-gap emission witness below one
more leading line. -/
theorem detect_sound_shift (l : Str) (rest : List Str) (s : Str) (v : ℚ)
    (h : ∃ i j, i < j ∧ rest.get? i = some s ∧ isTickerLine s = true ∧
      (∃ l2, rest.get? j = some l2 ∧ money_match l2 = some v) ∧
      ∀ k l2, i < k → k < j → rest.get? k = some l2 → neutralLine l2 = true) :
    ∃ i j, i < j ∧ (l :: rest).get? i = some s ∧ isTickerLine s = true ∧
      (∃ l2, (l :: rest).get? j = some l2 ∧ money_match l2 = some v) ∧
      ∀ k l2, i < k → k < j → (l :: rest).get? k = some l2 → neutralLine l2 = true := by
  obtain ⟨i, j, hij, hi, hts, ⟨l2, hj, hm⟩, hgap⟩ := h
  refine ⟨i + 1, j + 1, by omega, by rw [List.get?_cons_succ]; exact hi, hts,
    ⟨l2, by rw [List.get?_cons_succ]; exact hj, hm⟩, ?_⟩
  intro k l3 hik hkj hkget
  obtain ⟨k2, rfl⟩ : ∃ k2, k = k2 + 1 := ⟨k - 1, by omega⟩
  rw [List.get?_cons_succ] at hkget
  exact hgap k2 l3 (by omega) (by omega) hkget

/-- Invariant of the detector loop: an entry of the result map is either
already present, or pairs the pending symbol with the first dollar line
of the remaining input across a neutral gap, or comes from a ticker line
inside the remaining lines paired with the first dollar-or-ticker line
after it, which is a matching price line, across a neutral gap. -/
theorem detect_aux_sound (lines : List Str) :
    ∀ (sym : Option Str) (und : Str → Option ℚ) (s : Str) (v : ℚ),
      detect_underlyings_aux sym und lines s = some v →
      und s = some v ∨
      (sym = some s ∧ ∃ j, (∃ l2, lines.get? j = some l2 ∧ money_match l2 = some v) ∧
        ∀ k l2, k < j → lines.get? k = some l2 → neutralLine l2 = true) ∨
      (∃ i j, i < j ∧ lines.get? i = some s ∧ isTickerLine s = true ∧
        (∃ l2, lines.get? j = some l2 ∧ money_match l2 = some v) ∧
        ∀ k l2, i < k → k < j → lines.get? k = some l2 → neutralLine l2 = true) := by
  induction lines with
  | nil =>
    intro sym und s v h
    left
    exact h
  | cons l rest ih =>
    intro sym und s v h
    rw [show detect_underlyings_aux sym und (l :: rest) =
        detect_underlyings_aux (detect_step sym und l).1 (detect_step sym und l).2 rest
      from rfl] at h
    by_cases ht : isTickerLine l
    · rw [detect_step_ticker sym und l ht] at h
      rcases ih (some l) und s v h with h1 | ⟨h2a, j, ⟨l2, hj, hm⟩, hgap⟩ | h3
      · left
        exact h1
      · have hls : l = s := by injection h2a with hh
        right; right
        refine ⟨0, j + 1, by omega, by rw [List.get?_cons_zero, hls], ?_,
          ⟨l2, by rw [List.get?_cons_succ]; exact hj, hm⟩, ?_⟩
        · rw [← hls]
          exact ht
        · intro k l3 hk0 hkj hkget
          obtain ⟨k2, rfl⟩ : ∃ k2, k = k2 + 1 := ⟨k - 1, by omega⟩
          rw [List.get?_cons_succ] at hkget
          exact hgap k2 l3 (by omega) hkget
      · right; right
        exact detect_sound_shift l rest s v h3
    · have ht2 : isTickerLine l = false := by simpa using ht
      rcases sym with _ | s0
      · rw [detect_step_nosym und l ht2] at h
        rcases ih none und s v h with h1 | ⟨h2a, _⟩ | h3
        · left
          exact h1
        · exact absurd h2a (by simp)
        · right; right
          exact detect_sound_shift l rest s v h3
      · by_cases hd : startsDollar l = true
        · rcases hm : money_match l with _ | v0
          · rw [detect_step_dollarFail (some s0) und l ht2 hd hm] at h
            rcases ih none und s v h with h1 | ⟨h2a, _⟩ | h3
            · left
              exact h1
            · exact absurd h2a (by simp)
            · right; right
              exact detect_sound_shift l rest s v h3
          · rw [detect_step_hit und l s0 v0 ht2 hm] at h
            rcases ih none (updFn und s0 v0) s v h with h1 | ⟨h2a, _⟩ | h3
            · unfold updFn at h1
              by_cases hss : s = s0
              · right; left
                rw [if_pos hss] at h1
                injection h1 with hv
                refine ⟨by rw [hss], 0, ⟨l, List.get?_cons_zero, by rw [← hv]; exact hm⟩, ?_⟩
                intro k l3 hk hkget
                omega
              · left
                rw [if_neg hss] at h1
                exact h1
            · exact absurd h2a (by simp)
            · right; right
              exact detect_sound_shift l rest s v h3
        · have hd2 : startsDollar l = false := by simpa using hd
          rw [detect_step_neutral (some s0) und l ht2 hd2] at h
          rcases ih (some s0) und s v h with h1 | ⟨h2a, j, ⟨l2, hj, hm⟩, hgap⟩ | h3
          · left
            exact h1
          · right; left
            refine ⟨h2a, j + 1, ⟨l2, by rw [List.get?_cons_succ]; exact hj, hm⟩, ?_⟩
            intro k l3 hk hkget
            match k with
            | 0 =>
              rw [List.get?_cons_zero] at hkget
              injection hkget with he
              rw [← he]
              simp [neutralLine, ht2, hd2]
            | k2 + 1 =>
              rw [List.get?_cons_succ] at hkget
              exact hgap k2 l3 (by omega) hkget
          · right; right
            exact detect_sound_shift l rest s v h3

/-- The pending-symbol state is irrelevant when the first subsequent
ticker-or-dollar line does not capture it. -/
theorem detect_aux_symInsensitive (post : List Str) :
    ∀ (und : Str → Option ℚ), noPendingCapture post = true →
      ∀ s1 s2 : Option Str,
        detect_underlyings_aux s1 und post = detect_underlyings_aux s2 und post := by
  induction post with
  | nil =>
    intro und _ s1 s2
    rfl
  | cons l rest ih =>
    intro und hcap s1 s2
    rw [show detect_underlyings_aux s1 und (l :: rest) =
        detect_underlyings_aux (detect_step s1 und l).1 (detect_step s1 und l).2 rest
      from rfl,
      show detect_underlyings_aux s2 und (l :: rest) =
        detect_underlyings_aux (detect_step s2 und l).1 (detect_step s2 und l).2 rest
      from rfl]
    by_cases ht : isTickerLine l
    · rw [detect_step_ticker s1 und l ht, detect_step_ticker s2 und l ht]
    · have ht2 : isTickerLine l = false := by simpa using ht
      by_cases hd : startsDollar l = true
      · have hm : money_match l = none := by
          have := hcap
          unfold noPendingCapture at this
          rw [if_neg (by simp [ht2]), if_pos hd] at this
          simpa [Option.isNone_iff_eq_none] using this
        rw [detect_step_dollarFail s1 und l ht2 hd hm,
          detect_step_dollarFail s2 und l ht2 hd hm]
      · have hd2 : startsDollar l = false := by simpa using hd
        have hcap2 : noPendingCapture rest = true := by
          have := hcap
          unfold noPendingCapture at this
          rw [if_neg (by simp [ht2]), if_neg (by simp [hd2])] at this
          exact this
        rw [detect_step_neutral s1 und l ht2 hd2, detect_step_neutral s2 und l ht2 hd2]
        exact ih und hcap2 s1 s2

/-- Inserting a bare-ticker line whose first subsequent ticker-or-dollar
line does not capture a pending symbol leaves the detector output
unchanged. -/
theorem detect_aux_insert (pre : List Str) :
    ∀ (sym : Option Str) (und : Str → Option ℚ) (t : Str) (post : List Str),
      isTickerLine t = true →
      noPendingCapture post = true →
      detect_underlyings_aux sym und (pre ++ t :: post) =
        detect_underlyings_aux sym und (pre ++ post) := by
  induction pre with
  | nil =>
    intro sym und t post htk hcap
    show detect_underlyings_aux sym und (t :: post) = detect_underlyings_aux sym und post
    rw [show detect_underlyings_aux sym und (t :: post) =
        detect_underlyings_aux (detect_step sym und t).1 (detect_step sym und t).2 post
      from rfl,
      detect_step_ticker sym und t htk]
    exact detect_aux_symInsensitive post und hcap (some t) sym
  | cons p pre2 ih =>
    intro sym und t post htk hcap
    show detect_underlyings_aux sym und (p :: (pre2 ++ t :: post)) =
      detect_underlyings_aux sym und (p :: (pre2 ++ post))
    rw [show detect_underlyings_aux sym und (p :: (pre2 ++ t :: post)) =
        detect_underlyings_aux (detect_step sym und p).1 (detect_step sym und p).2
          (pre2 ++ t :: post) from rfl,
      show detect_underlyings_aux sym und (p :: (pre2 ++ post)) =
        detect_underlyings_aux (detect_step sym und p).1 (detect_step sym und p).2
          (pre2 ++ post) from rfl]
    exact ih _ _ t post htk hcap

/-- C7 counterexample: the pending ticker survives non-dollar lines, so
AAPL is recorded from a price line that is not immediately following it,
and a dangling ticker ZZ is not discarded: it captures a price line two
lines later, changing what later lines parse to. -/
theorem C7_counterexample :
    isTickerLine "AAPL".toList = true ∧
    money_match "hello".toList = none ∧
    detect_underlyings ["AAPL".toList, "hello".toList, "$230.49".toList]
      "AAPL".toList = some (23049 / 100) ∧
    isTickerLine "ZZ".toList = true ∧
    money_match "junk".toList = none ∧
    detect_underlyings ["ZZ".toList, "junk".toList, "$5.00".toList]
      "ZZ".toList = some 5 ∧
    detect_underlyings ["junk".toList, "$5.00".toList] "ZZ".toList = none ∧
    detect_underlyings ["ZZ".toList, "junk".toList, "$5.00".toList] ≠
      detect_underlyings ["junk".toList, "$5.00".toList] := by
  have hz : detect_underlyings ["ZZ".toList, "junk".toList, "$5.00".toList]
      "ZZ".toList = some 5 := by
    simp [detect_underlyings, detect_underlyings_aux, detect_step, isTickerLine,
      money_match, startsDollar, updFn, digitsVal, decimalVal]
  have hn : detect_underlyings ["junk".toList, "$5.00".toList] "ZZ".toList = none := by
    decide
  refine ⟨by decide, by decide, ?_, by decide, by decide, hz, hn, ?_⟩
  · simp [detect_underlyings, detect_underlyings_aux, detect_step, isTickerLine,
      money_match, startsDollar, updFn, digitsVal, decimalVal]
    norm_num
  · intro heq
    rw [heq, hn] at hz
    cases hz

/-- C7 amended: the detector pairs a bare-ticker line with the first
subsequent line that starts with a dollar sign or is itself a ticker,
skipping neutral lines without clearing the pending symbol; every
recorded symbol-price entry comes from a ticker line followed, across
only neutral lines, by a line matching the anchored money pattern, which
need not be adjacent; and a bare-ticker line is discarded without
affecting later parsing exactly when the first subsequent ticker-or-
dollar line does not capture it: another ticker, a dollar line failing
the money pattern, or the end of input. -/
theorem C7_detect_underlyings :
    (∀ (lines : List Str) (s : Str) (v : ℚ),
      detect_underlyings lines s = some v →
      ∃ i j, i < j ∧ lines.get? i = some s ∧ isTickerLine s = true ∧
        (∃ l2, lines.get? j = some l2 ∧ money_match l2 = some v) ∧
        ∀ k l2, i < k → k < j → lines.get? k = some l2 → neutralLine l2 = true) ∧
    (∀ (pre post : List Str) (t : Str),
      isTickerLine t = true →
      noPendingCapture post = true →
      detect_underlyings (pre ++ t :: post) = detect_underlyings (pre ++ post)) := by
  constructor
  · intro lines s v h
    rcases detect_aux_sound lines none (fun _ => none) s v h with h1 | ⟨h2a, _⟩ | h3
    · exact absurd h1 (by simp)
    · exact absurd h2a (by simp)
    · exact h3
  · intro pre post t htk hcap
    exact detect_aux_insert pre none (fun _ => none) t post htk hcap

/-- Witness for C7: the AAPL entry of a concrete paste with a neutral
line between ticker and price comes from such a gapped pair, and a
dangling ticker ZZ before a single neutral line is dropped. -/
theorem C7_detect_underlyings_witness :
    (∃ i j, i < j ∧
      (["AAPL".toList, "hello".toList, "$230.49".toList]).get? i =
        some "AAPL".toList ∧
      isTickerLine "AAPL".toList = true ∧
      (∃ l2, (["AAPL".toList, "hello".toList, "$230.49".toList]).get? j = some l2 ∧
        money_match l2 = some (23049 / 100)) ∧
      ∀ k l2, i < k → k < j →
        (["AAPL".toList, "hello".toList, "$230.49".toList]).get? k = some l2 →
        neutralLine l2 = true) ∧
    detect_underlyings ["ZZ".toList, "junk".toList] =
      detect_underlyings ["junk".toList] := by
  constructor
  · apply C7_detect_underlyings.1
    show detect_underlyings_aux none (fun _ => none)
      ["AAPL".toList, "hello".toList, "$230.49".toList] "AAPL".toList =
      some (23049 / 100)
    simp [detect_underlyings_aux, detect_step, isTickerLine, money_match,
      startsDollar, updFn, digitsVal, decimalVal]
    norm_num
  · have h := C7_detect_underlyings.2 [] ["junk".toList] "ZZ".toList (by decide)
      (by decide)
    simpa using h
end TradeHub


namespace TradeHub

/-- Sign expansion distributes over append. -/
theorem flatMap_expand_append (a b : Str) :
    (a ++ b).flatMap expandSign = a.flatMap expandSign ++ b.flatMap expandSign := by
  induction a with
  | nil => rfl
  | cons c rest ih =>
    show expandSign c ++ (rest ++ b).flatMap expandSign = _
    rw [ih]
    simp

/-- Characters that are not signs expand to themselves. -/
theorem flatMap_expandSign_id (l : Str) (h : ∀ c ∈ l, c ≠ '+' ∧ c ≠ '-') :
    l.flatMap expandSign = l := by
  induction l with
  | nil => rfl
  | cons c rest ih =>
    have hc := h c (by simp)
    show expandSign c ++ rest.flatMap expandSign = c :: rest
    rw [ih (fun x hx => h x (by simp [hx]))]
    simp [expandSign, hc.1, hc.2]

/-- A well-formed token expands to itself, possibly with one leading
space when it starts with a sign. -/
theorem flatMap_expandSign_wf (t : Str) (h : wfToken t) :
    t.flatMap expandSign = t ∨ t.flatMap expandSign = ' ' :: t := by
  match t, h.1 with
  | [], h0 => exact absurd rfl h0
  | c :: rest, _ =>
    have hrest : rest.flatMap expandSign = rest :=
      flatMap_expandSign_id rest (fun x hx => h.2.2 x hx)
    by_cases hp : c = '+'
    · right
      show expandSign c ++ rest.flatMap expandSign = ' ' :: c :: rest
      rw [hrest]
      simp [expandSign, hp]
    · by_cases hmn : c = '-'
      · right
        show expandSign c ++ rest.flatMap expandSign = ' ' :: c :: rest
        rw [hrest]
        simp [expandSign, hp, hmn]
      · left
        show expandSign c ++ rest.flatMap expandSign = c :: rest
        rw [hrest]
        simp [expandSign, hp, hmn]

/-- Unfolding equation of the splitter on a cons cell. -/
theorem splitWsAux_cons (cur : Str) (c : Char) (rest : Str) :
    splitWsAux cur (c :: rest) =
      if isWs c then
        (if cur = [] then splitWsAux [] rest else cur.reverse :: splitWsAux [] rest)
      else splitWsAux (c :: cur) rest := rfl

/-- Unfolding equation of the splitter on the empty row. -/
theorem splitWsAux_nil_eq (cur : Str) :
    splitWsAux cur [] = if cur = [] then [] else [cur.reverse] := rfl

/-- Consuming a whitespace-free run extends the current token. -/
theorem splitWsAux_run (w : Str) :
    ∀ (cur l : Str), (∀ c ∈ w, isWs c = false) →
      splitWsAux cur (w ++ l) = splitWsAux (w.reverse ++ cur) l := by
  induction w with
  | nil =>
    intro cur l _
    simp
  | cons c rest ih =>
    intro cur l hw
    have hc : isWs c = false := hw c (by simp)
    show splitWsAux cur (c :: (rest ++ l)) = _
    rw [splitWsAux_cons, if_neg (by simp [hc]),
      ih (c :: cur) l (fun x hx => hw x (by simp [hx]))]
    congr 1
    simp

/-- Splitting one expanded well-formed token followed by anything. -/
theorem token_split_step (t : Str) (h : wfToken t) (l : Str) :
    splitWsAux [] (t.flatMap expandSign ++ l) = splitWsAux t.reverse l := by
  rcases flatMap_expandSign_wf t h with he | he
  · rw [he, splitWsAux_run t [] l h.2.1]
    simp
  · rw [he, List.cons_append, splitWsAux_cons]
    rw [if_pos (by simp [isWs]), if_pos rfl]
    rw [splitWsAux_run t [] l h.2.1]
    simp

/-- Ending the row right after a token emits the token. -/
theorem splitWsAux_rev_nil (t : Str) (h : t ≠ []) : splitWsAux t.reverse [] = [t] := by
  rw [splitWsAux_nil_eq, if_neg (by simpa using h)]
  simp

/-- A space right after a token emits the token and resumes fresh. -/
theorem splitWsAux_rev_space (t : Str) (h : t ≠ []) (l : Str) :
    splitWsAux t.reverse (' ' :: l) = t :: splitWsAux [] l := by
  rw [splitWsAux_cons, if_pos (by simp [isWs]), if_neg (by simpa using h)]
  simp

/-- Joining well-formed tokens with single spaces and re-splitting with
the sign-aware tokenizer restores the token list. -/
theorem token_split_joinTok (toks : List Str) :
    (∀ t ∈ toks, wfToken t) → token_split (joinTok toks) = toks := by
  induction toks with
  | nil =>
    intro _
    rfl
  | cons t rest ih =>
    intro h
    have hwt : wfToken t := h t (by simp)
    match rest, ih with
    | [], _ =>
      show token_split (joinTok [t]) = [t]
      have hj : joinTok [t] = t := rfl
      unfold token_split splitWs
      rw [hj, show t.flatMap expandSign = t.flatMap expandSign ++ [] from
        (List.append_nil _).symm]
      rw [token_split_step t hwt []]
      exact splitWsAux_rev_nil t hwt.1
    | r :: rs, ih =>
      have hj : joinTok (t :: r :: rs) = t ++ ' ' :: joinTok (r :: rs) := rfl
      show token_split (joinTok (t :: r :: rs)) = t :: r :: rs
      unfold token_split splitWs
      rw [hj, flatMap_expand_append]
      have hsp : (' ' :: joinTok (r :: rs)).flatMap expandSign =
          ' ' :: (joinTok (r :: rs)).flatMap expandSign := rfl
      rw [hsp, token_split_step t hwt _, splitWsAux_rev_space t hwt.1 _]
      have hres := ih (fun x hx => h x (by simp [hx]))
      unfold token_split splitWs at hres
      exact congrArg (List.cons t) hres

end TradeHub

namespace TradeHub

/-- Unfolding equation of the marker scan on a cons cell. -/
theorem itmSearchAux_cons (prev : Option Char) (c : Char) (rest : Str) :
    itmSearchAux prev (c :: rest) =
      if wordMatchAt prev (c :: rest) itmTok then some itmTok
      else if wordMatchAt prev (c :: rest) otmTok then some otmTok
      else itmSearchAux (some c) rest := rfl

/-- A leading match is a containment. -/
theorem leads_contains (pat l : Str) (h : leadsList pat l = true) :
    containsSeq l pat = true := by
  cases l with
  | nil =>
    show leadsList pat [] = true
    exact h
  | cons c rest =>
    show (leadsList pat (c :: rest) || containsSeq rest pat) = true
    simp [h]

/-- A space-free pattern matching across a space separator already
matches inside the part before the separator. -/
theorem leads_no_space (pat : Str) :
    ∀ (t rest : Str), (∀ p ∈ pat, p ≠ ' ') →
      leadsList pat (t ++ ' ' :: rest) = true → leadsList pat t = true := by
  induction pat with
  | nil =>
    intro t rest _ _
    cases t <;> rfl
  | cons p ps ih =>
    intro t rest hsp hld
    cases t with
    | nil =>
      simp only [List.nil_append, leadsList, Bool.and_eq_true, decide_eq_true_eq] at hld
      exact absurd hld.1 (hsp p (by simp))
    | cons a t2 =>
      simp only [List.cons_append, leadsList, Bool.and_eq_true] at hld ⊢
      exact ⟨hld.1, ih t2 rest (fun x hx => hsp x (by simp [hx])) hld.2⟩

/-- Containment is monotone along the tail. -/
theorem contains_cons_false (c : Char) (t pat : Str)
    (h : containsSeq (c :: t) pat = false) : containsSeq t pat = false := by
  have h2 : (leadsList pat (c :: t) || containsSeq t pat) = false := h
  simp only [Bool.or_eq_false_iff] at h2
  exact h2.2

/-- Scanning past a marker-free token followed by a space reaches the
state just after the space. -/
theorem itmSearchAux_skip (t : Str) :
    ∀ (prev : Option Char) (rest : Str),
      containsSeq t itmTok = false → containsSeq t otmTok = false →
      itmSearchAux prev (t ++ ' ' :: rest) = itmSearchAux (some ' ') rest := by
  induction t with
  | nil =>
    intro prev rest _ _
    have hI : wordMatchAt prev (' ' :: rest) itmTok = false := by
      simp [wordMatchAt, leadsList, itmTok]
    have hO : wordMatchAt prev (' ' :: rest) otmTok = false := by
      simp [wordMatchAt, leadsList, otmTok]
    show itmSearchAux prev (' ' :: rest) = _
    rw [itmSearchAux_cons]
    simp [hI, hO]
  | cons c t2 ih =>
    intro prev rest hI hO
    have hlI : leadsList itmTok (c :: (t2 ++ ' ' :: rest)) = false := by
      cases hh : leadsList itmTok (c :: (t2 ++ ' ' :: rest)) with
      | false => rfl
      | true =>
        have hh2 : leadsList itmTok ((c :: t2) ++ ' ' :: rest) = true := by
          simpa using hh
        have hin := leads_contains itmTok (c :: t2)
          (leads_no_space itmTok (c :: t2) rest (by decide) hh2)
        rw [hin] at hI
        cases hI
    have hlO : leadsList otmTok (c :: (t2 ++ ' ' :: rest)) = false := by
      cases hh : leadsList otmTok (c :: (t2 ++ ' ' :: rest)) with
      | false => rfl
      | true =>
        have hh2 : leadsList otmTok ((c :: t2) ++ ' ' :: rest) = true := by
          simpa using hh
        have hin := leads_contains otmTok (c :: t2)
          (leads_no_space otmTok (c :: t2) rest (by decide) hh2)
        rw [hin] at hO
        cases hO
    have hwI : wordMatchAt prev (c :: (t2 ++ ' ' :: rest)) itmTok = false := by
      simp [wordMatchAt, hlI]
    have hwO : wordMatchAt prev (c :: (t2 ++ ' ' :: rest)) otmTok = false := by
      simp [wordMatchAt, hlO]
    show itmSearchAux prev (c :: (t2 ++ ' ' :: rest)) = _
    rw [itmSearchAux_cons]
    simp only [hwI, hwO, Bool.false_eq_true, if_false]
    exact ih (some c) rest (contains_cons_false c t2 itmTok hI)
      (contains_cons_false c t2 otmTok hO)

/-- The scan recognizes a marker token at the current position when the
previous character is a space or the row start and the marker is
followed by a space or the row end. -/
theorem itmSearchAux_hit (m tail : Str) (prev : Option Char)
    (hm : m = itmTok ∨ m = otmTok)
    (hprev : prev = none ∨ prev = some ' ')
    (htail : tail = [] ∨ ∃ r, tail = ' ' :: r) :
    itmSearchAux prev (m ++ tail) = some m := by
  rcases hm with hm | hm <;> subst hm
  · show itmSearchAux prev ('I' :: 'T' :: 'M' :: tail) = some itmTok
    rw [itmSearchAux_cons]
    have hw : wordMatchAt prev ('I' :: 'T' :: 'M' :: tail) itmTok = true := by
      rcases hprev with h | h <;> subst h <;>
        rcases htail with h2 | ⟨r, h2⟩ <;> subst h2 <;>
        simp [wordMatchAt, leadsList, itmTok, isWordChar]
    simp [hw]
  · show itmSearchAux prev ('O' :: 'T' :: 'M' :: tail) = some otmTok
    rw [itmSearchAux_cons]
    have hwI : wordMatchAt prev ('O' :: 'T' :: 'M' :: tail) itmTok = false := by
      simp [wordMatchAt, leadsList, itmTok]
    have hw : wordMatchAt prev ('O' :: 'T' :: 'M' :: tail) otmTok = true := by
      rcases hprev with h | h <;> subst h <;>
        rcases htail with h2 | ⟨r, h2⟩ <;> subst h2 <;>
        simp [wordMatchAt, leadsList, otmTok, isWordChar]
    simp [hwI, hw]

/-- Joining a nonempty tail inserts a separating space. -/
theorem joinTok_cons (t : Str) (l : List Str) (h : l ≠ []) :
    joinTok (t :: l) = t ++ ' ' :: joinTok l := by
  cases l with
  | nil => exact absurd rfl h
  | cons r rs => rfl

/-- On a row of joined tokens whose prefix part is marker-free, the
regex search returns the anchor marker. -/
theorem itm_search_anchor_aux (pre : List Str) :
    ∀ (prev : Option Char) (m : Str) (post : List Str),
      (prev = none ∨ prev = some ' ') →
      (m = itmTok ∨ m = otmTok) →
      (∀ t ∈ pre, containsSeq t itmTok = false ∧ containsSeq t otmTok = false) →
      itmSearchAux prev (joinTok (pre ++ m :: post)) = some m := by
  induction pre with
  | nil =>
    intro prev m post hprev hm _
    cases post with
    | nil =>
      have hh := itmSearchAux_hit m [] prev hm hprev (Or.inl rfl)
      rw [List.append_nil] at hh
      exact hh
    | cons p ps =>
      show itmSearchAux prev (joinTok (m :: p :: ps)) = some m
      rw [joinTok_cons m (p :: ps) (by simp)]
      exact itmSearchAux_hit m (' ' :: joinTok (p :: ps)) prev hm hprev
        (Or.inr ⟨_, rfl⟩)
  | cons t pre2 ih =>
    intro prev m post hprev hm hpre
    show itmSearchAux prev (joinTok (t :: (pre2 ++ m :: post))) = some m
    rw [joinTok_cons t (pre2 ++ m :: post) (by simp)]
    rw [itmSearchAux_skip t prev _ (hpre t (by simp)).1 (hpre t (by simp)).2]
    exact ih (some ' ') m post (Or.inr rfl) hm (fun x hx => hpre x (by simp [hx]))

end TradeHub

namespace TradeHub

/-- The first index of the marker in a token list whose prefix avoids it
is the prefix length. -/
theorem idxOfTok_append (pre : List Str) (m : Str) (post : List Str)
    (h : ∀ t ∈ pre, t ≠ m) :
    idxOfTok (pre ++ m :: post) m = some pre.length := by
  induction pre with
  | nil => simp [idxOfTok]
  | cons t pre2 ih =>
    have ht : t ≠ m := h t (by simp)
    show idxOfTok (t :: (pre2 ++ m :: post)) m = some (pre2.length + 1)
    unfold idxOfTok
    rw [if_neg ht, ih (fun x hx => h x (by simp [hx]))]
    rfl

/-- Reading past the anchor lands in the suffix token list. -/
theorem nthTok_shift (pre : List Str) (x : Str) (post : List Str) (k : Nat) :
    nthTok (pre ++ x :: post) (pre.length + (k + 1)) = nthTok post k := by
  induction pre with
  | nil =>
    show nthTok (x :: post) (0 + (k + 1)) = nthTok post k
    rw [Nat.zero_add]
    rfl
  | cons t pre2 ih =>
    show nthTok (t :: (pre2 ++ x :: post)) (pre2.length + 1 + (k + 1)) = nthTok post k
    rw [show pre2.length + 1 + (k + 1) = (pre2.length + (k + 1)) + 1 by omega]
    exact ih

/-- Comma stripping is idempotent. -/
theorem stripCommas_idem (t : Str) : stripCommas (stripCommas t) = stripCommas t := by
  unfold stripCommas
  rw [List.filter_filter]
  simp

/-- Integer parsing ignores an outer comma strip. -/
theorem to_int_strip (t : Str) : to_int (stripCommas t) = to_int t := by
  unfold to_int
  rw [stripCommas_idem]

/-- Float parsing ignores an outer comma strip. -/
theorem to_float_strip (t : Str) : to_float (stripCommas t) = to_float t := by
  unfold to_float
  rw [stripCommas_idem]

/-- Binding an integer parse through the comma-stripping accessor is the
plain parse of the underlying token. -/
theorem bind_strip_int (o : Option Str) :
    (o.map stripCommas).bind to_int = o.bind to_int := by
  cases o with
  | none => rfl
  | some u =>
    show to_int (stripCommas u) = to_int u
    exact to_int_strip u

/-- Binding a float parse through the comma-stripping accessor is the
plain parse of the underlying token. -/
theorem bind_strip_float (o : Option Str) :
    (o.map stripCommas).bind to_float = o.bind to_float := by
  cases o with
  | none => rfl
  | some u =>
    show to_float (stripCommas u) = to_float u
    exact to_float_strip u

/-- Markers lead themselves, so a token equal to the marker contains it. -/
theorem marker_ne_of_no_contains (t m : Str)
    (hm : m = itmTok ∨ m = otmTok)
    (hI : containsSeq t itmTok = false) (hO : containsSeq t otmTok = false) :
    t ≠ m := by
  intro he
  subst he
  rcases hm with hm | hm <;> subst hm
  · rw [show containsSeq itmTok itmTok = true from by decide] at hI
    cases hI
  · rw [show containsSeq otmTok otmTok = true from by decide] at hO
    cases hO

/-- Anchored extraction on a well-formed row whose tokens before the
anchor are marker-free: the parse is the marker followed by the
positional claim-side read of the tokens after the anchor. -/
theorem parse_after_itm_anchor (pre post : List Str) (m : Str)
    (hm : m = itmTok ∨ m = otmTok)
    (hwf : ∀ t ∈ pre ++ m :: post, wfToken t)
    (hpre : ∀ t ∈ pre, containsSeq t itmTok = false ∧ containsSeq t otmTok = false) :
    parse_after_itm_block (joinTok (pre ++ m :: post)) =
      (some m, (claimReadAfter post).1, (claimReadAfter post).2.1,
        (claimReadAfter post).2.2.1, (claimReadAfter post).2.2.2) := by
  have hsearch : itm_search (joinTok (pre ++ m :: post)) = some m :=
    itm_search_anchor_aux pre none m post (Or.inl rfl) hm hpre
  have htoks : token_split (joinTok (pre ++ m :: post)) = pre ++ m :: post :=
    token_split_joinTok _ hwf
  have hidx : idxOfTok (pre ++ m :: post) m = some pre.length :=
    idxOfTok_append pre m post
      (fun t ht => marker_ne_of_no_contains t m hm (hpre t ht).1 (hpre t ht).2)
  have hget : ∀ k : Nat, getTok (pre ++ m :: post) (pre.length + (k + 1)) =
      (nthTok post k).map stripCommas := by
    intro k
    unfold getTok
    rw [nthTok_shift]
  unfold parse_after_itm_block
  simp only [hsearch, htoks, hidx]
  have h1 : pre.length + 1 = pre.length + (0 + 1) := by omega
  have h2 : pre.length + 2 = pre.length + (1 + 1) := by omega
  have h3 : pre.length + 3 = pre.length + (2 + 1) := by omega
  have h4 : pre.length + 4 = pre.length + (3 + 1) := by omega
  have h5 : pre.length + 5 = pre.length + (4 + 1) := by omega
  rw [h1, h2, h3, h4, h5, hget 0, hget 1, hget 2, hget 3, hget 4]
  rw [bind_strip_int, bind_strip_float, bind_strip_int, bind_strip_int, bind_strip_int]
  rfl

end TradeHub

namespace TradeHub

/-- C1 counterexample: the row minus-OTM ITM 10 0.5 100 -1 contains the
anchor token ITM, whose following four tokens read positionally as 10,
0.5, 100, -1, yet the extractor returns no fields at all because the
string-level regex search hits the OTM letters embedded in the first
token and then finds no token equal to OTM. -/
theorem C1_counterexample :
    itmTok ∈ token_split "-OTM ITM 10 0.5 100 -1".toList ∧
    token_split "-OTM ITM 10 0.5 100 -1".toList =
      ["-OTM".toList, itmTok, "10".toList, "0.5".toList, "100".toList, "-1".toList] ∧
    to_int "10".toList = some 10 ∧
    parse_after_itm_block "-OTM ITM 10 0.5 100 -1".toList =
      (some otmTok, none, none, none, none) ∧
    (parse_after_itm_block "-OTM ITM 10 0.5 100 -1".toList).2.1 ≠ some 10 := by
  refine ⟨by decide, by decide, by decide, by decide, by decide⟩

/-- C1 amended: on a data row whose tokens are well formed and whose
tokens before the anchor contain no ITM or OTM character sequence, the
extractor reads the four tokens immediately after the anchor token
positionally as dte, delta, open interest, quantity, trying the fifth
token for the quantity exactly when the fourth parses to an integer
other than plus or minus one. -/
theorem C1_positional_after_anchor (pre post : List Str) (m : Str)
    (hm : m = itmTok ∨ m = otmTok)
    (hwf : ∀ t ∈ pre ++ m :: post, wfToken t)
    (hpre : ∀ t ∈ pre, containsSeq t itmTok = false ∧ containsSeq t otmTok = false) :
    parse_after_itm_block (joinTok (pre ++ m :: post)) =
      (some m, (claimReadAfter post).1, (claimReadAfter post).2.1,
        (claimReadAfter post).2.2.1, (claimReadAfter post).2.2.2) :=
  parse_after_itm_anchor pre post m hm hwf hpre

/-- Witness for C1 on the spec example row. -/
theorem C1_positional_after_anchor_witness :
    (∀ t ∈ ["$1.00".toList] ++ itmTok ::
      ["320".toList, "0.82".toList, "5200".toList, "-1".toList], wfToken t) ∧
    (∀ t ∈ ["$1.00".toList],
      containsSeq t itmTok = false ∧ containsSeq t otmTok = false) ∧
    parse_after_itm_block (joinTok (["$1.00".toList] ++ itmTok ::
        ["320".toList, "0.82".toList, "5200".toList, "-1".toList])) =
      (some itmTok,
        (claimReadAfter ["320".toList, "0.82".toList, "5200".toList, "-1".toList]).1,
        (claimReadAfter ["320".toList, "0.82".toList, "5200".toList, "-1".toList]).2.1,
        (claimReadAfter ["320".toList, "0.82".toList, "5200".toList, "-1".toList]).2.2.1,
        (claimReadAfter ["320".toList, "0.82".toList, "5200".toList, "-1".toList]).2.2.2) :=
  ⟨by decide, by decide,
    C1_positional_after_anchor ["$1.00".toList]
      ["320".toList, "0.82".toList, "5200".toList, "-1".toList] itmTok
      (Or.inl rfl) (by decide) (by decide)⟩

/-- C3 counterexample: two rows whose tokens before the only ITM or OTM
token are permutations of each other, with the anchor and everything
after it unchanged, yield different extracted fields: the first parses
dte 10, the second parses nothing. -/
theorem C3_counterexample :
    token_split "-ITM -OTM ITM 10 0.5 100 -1".toList =
      ["-ITM".toList, "-OTM".toList, itmTok, "10".toList, "0.5".toList,
        "100".toList, "-1".toList] ∧
    token_split "-OTM -ITM ITM 10 0.5 100 -1".toList =
      ["-OTM".toList, "-ITM".toList, itmTok, "10".toList, "0.5".toList,
        "100".toList, "-1".toList] ∧
    (∀ t ∈ ["-ITM".toList, "-OTM".toList, "10".toList, "0.5".toList,
        "100".toList, "-1".toList], t ≠ itmTok ∧ t ≠ otmTok) ∧
    (parse_after_itm_block "-ITM -OTM ITM 10 0.5 100 -1".toList).1 = some itmTok ∧
    (parse_after_itm_block "-ITM -OTM ITM 10 0.5 100 -1".toList).2.1 = some 10 ∧
    (parse_after_itm_block "-OTM -ITM ITM 10 0.5 100 -1".toList).1 = some otmTok ∧
    (parse_after_itm_block "-OTM -ITM ITM 10 0.5 100 -1".toList).2.1 = none ∧
    parse_after_itm_block "-ITM -OTM ITM 10 0.5 100 -1".toList ≠
      parse_after_itm_block "-OTM -ITM ITM 10 0.5 100 -1".toList := by
  refine ⟨by decide, by decide, by decide, by decide, by decide, by decide,
    by decide, by decide⟩

/-- C3 amended: permuting the tokens before the anchor leaves the four
extracted fields unchanged provided the pre-anchor tokens are well
formed and contain no ITM or OTM character sequence at all, not merely
fail to equal the marker. -/
theorem C3_anchor_permutation (pre pre2 post : List Str) (m : Str)
    (hm : m = itmTok ∨ m = otmTok)
    (hperm : pre.Perm pre2)
    (hwf : ∀ t ∈ pre ++ m :: post, wfToken t)
    (hpre : ∀ t ∈ pre, containsSeq t itmTok = false ∧ containsSeq t otmTok = false) :
    parse_after_itm_block (joinTok (pre ++ m :: post)) =
      parse_after_itm_block (joinTok (pre2 ++ m :: post)) := by
  have hwf2 : ∀ t ∈ pre2 ++ m :: post, wfToken t := by
    intro t ht
    rcases List.mem_append.mp ht with h | h
    · exact hwf t (List.mem_append.mpr (Or.inl (hperm.mem_iff.mpr h)))
    · exact hwf t (List.mem_append.mpr (Or.inr h))
  have hpre2 : ∀ t ∈ pre2,
      containsSeq t itmTok = false ∧ containsSeq t otmTok = false :=
    fun t ht => hpre t (hperm.mem_iff.mpr ht)
  rw [parse_after_itm_anchor pre post m hm hwf hpre,
    parse_after_itm_anchor pre2 post m hm hwf2 hpre2]

/-- Witness for C3: swapping two marker-free tokens before the anchor
leaves the parse unchanged. -/
theorem C3_anchor_permutation_witness :
    (["aa".toList, "$1.00".toList].Perm ["$1.00".toList, "aa".toList]) ∧
    parse_after_itm_block (joinTok (["aa".toList, "$1.00".toList] ++ itmTok ::
        ["320".toList, "0.82".toList, "5200".toList, "-1".toList])) =
      parse_after_itm_block (joinTok (["$1.00".toList, "aa".toList] ++ itmTok ::
        ["320".toList, "0.82".toList, "5200".toList, "-1".toList])) :=
  ⟨List.Perm.swap "$1.00".toList "aa".toList [],
    C3_anchor_permutation ["aa".toList, "$1.00".toList]
      ["$1.00".toList, "aa".toList]
      ["320".toList, "0.82".toList, "5200".toList, "-1".toList] itmTok
      (Or.inl rfl) (List.Perm.swap "$1.00".toList "aa".toList [])
      (by decide) (by decide)⟩

end TradeHub
